import Mathlib

/-
Verification of the Email_Maniac bulk-emailer core against its specification.

The repository contains several near-duplicate variants of a bulk e-mail
composer/sender.  The claims under check concern:
  * the placeholder template renderer (email_app.py, render_template),
  * the recipient send-list construction (F_EMAIL.py, send_emails_process),
  * CC delivery and the dispatch loop (QAQA.py / F_EMAIL.py,
    _perform_email_sending),
  * the e-mail syntax validators (F_EMAIL.py _is_valid_email and the inline
    check of email_app.py),
  * the column auto-mapper (F_EMAIL.py, _auto_detect_columns together with
    _load_csv_data_from_paths),
  * schedule registration (QAQA.py / F_EMAIL.py, send_emails_process),
  * the silent CSV-forwarding step of the web variant (email_app.py).

Strings are embedded as lists of characters so that the character-level
behaviour of Python str.replace, the regular-expression checks and string
sorting can be modelled and computed exactly.
-/

set_option autoImplicit false

abbrev Str := List Char

/-- Convert a Lean string literal to the character-list representation. -/
def chars (s : String) : Str := s.data

/-! ## Python str.replace

Python `s.replace(old, new)` scans `s` from the left and replaces every
non-overlapping occurrence of `old` by `new`.  `replaceAllFuel` is the
fuel-indexed structural version; `replaceAll` instantiates the fuel with the
length of the subject string, which suffices whenever the pattern is
non-empty (each step consumes at least one character). -/

def replaceAllFuel (p v : Str) : Nat → Str → Str
  | _, [] => []
  | 0, s => s
  | fuel + 1, c :: rest =>
    if p.isPrefixOf (c :: rest) then
      v ++ replaceAllFuel p v fuel (List.drop p.length (c :: rest))
    else
      c :: replaceAllFuel p v fuel rest

/-- Model of Python `s.replace(p, v)` for a non-empty pattern `p`. -/
def replaceAll (p v s : Str) : Str := replaceAllFuel p v s.length s

theorem replaceAllFuel_nil (p v : Str) (fuel : Nat) :
    replaceAllFuel p v fuel [] = [] := by
  cases fuel <;> rfl

theorem replaceAllFuel_congr (p v : Str) (hp : p ≠ []) :
    ∀ (f₁ : Nat) (s : Str) (f₂ : Nat), s.length ≤ f₁ → s.length ≤ f₂ →
      replaceAllFuel p v f₁ s = replaceAllFuel p v f₂ s := by
  intro f₁
  induction f₁ with
  | zero =>
    intro s f₂ h₁ _
    have hs : s = [] := List.length_eq_zero.mp (Nat.le_zero.mp h₁)
    subst hs
    rw [replaceAllFuel_nil, replaceAllFuel_nil]
  | succ f ih =>
    intro s f₂ h₁ h₂
    cases s with
    | nil => rw [replaceAllFuel_nil, replaceAllFuel_nil]
    | cons c rest =>
      have hlen : 1 ≤ p.length := by
        cases p with
        | nil => exact absurd rfl hp
        | cons a as => exact Nat.succ_le_succ (Nat.zero_le _)
      cases f₂ with
      | zero => exact absurd h₂ (by simp)
      | succ g =>
        show (if p.isPrefixOf (c :: rest) then
                v ++ replaceAllFuel p v f (List.drop p.length (c :: rest))
              else c :: replaceAllFuel p v f rest)
            = (if p.isPrefixOf (c :: rest) then
                v ++ replaceAllFuel p v g (List.drop p.length (c :: rest))
              else c :: replaceAllFuel p v g rest)
        by_cases hpre : p.isPrefixOf (c :: rest)
        · rw [if_pos hpre, if_pos hpre]
          have hdrop : (List.drop p.length (c :: rest)).length ≤ f := by
            rw [List.length_drop]
            have : (c :: rest).length ≤ f + 1 := h₁
            omega
          have hdrop₂ : (List.drop p.length (c :: rest)).length ≤ g := by
            rw [List.length_drop]
            have : (c :: rest).length ≤ g + 1 := h₂
            omega
          rw [ih _ g hdrop hdrop₂]
        · rw [if_neg hpre, if_neg hpre]
          have hr₁ : rest.length ≤ f := Nat.le_of_succ_le_succ h₁
          have hr₂ : rest.length ≤ g := Nat.le_of_succ_le_succ h₂
          rw [ih _ g hr₁ hr₂]

theorem replaceAll_nil (p v : Str) : replaceAll p v [] = [] := rfl

/-- One-step unfolding of `replaceAll` on a cons cell (non-empty pattern). -/
theorem replaceAll_cons (p v : Str) (hp : p ≠ []) (c : Char) (rest : Str) :
    replaceAll p v (c :: rest) =
      if p.isPrefixOf (c :: rest) then
        v ++ replaceAll p v (List.drop p.length (c :: rest))
      else
        c :: replaceAll p v rest := by
  have hlen : 1 ≤ p.length := by
    cases p with
    | nil => exact absurd rfl hp
    | cons a as => exact Nat.succ_le_succ (Nat.zero_le _)
  show replaceAllFuel p v (rest.length + 1) (c :: rest) = _
  by_cases hpre : p.isPrefixOf (c :: rest)
  · have : replaceAllFuel p v (rest.length + 1) (c :: rest)
        = v ++ replaceAllFuel p v rest.length (List.drop p.length (c :: rest)) := by
      show (if p.isPrefixOf (c :: rest) then
              v ++ replaceAllFuel p v rest.length (List.drop p.length (c :: rest))
            else c :: replaceAllFuel p v rest.length rest) = _
      rw [if_pos hpre]
    rw [this, if_pos hpre]
    have : replaceAllFuel p v rest.length (List.drop p.length (c :: rest))
        = replaceAll p v (List.drop p.length (c :: rest)) := by
      apply replaceAllFuel_congr p v hp
      · rw [List.length_drop]
        simp only [List.length_cons]
        omega
      · exact Nat.le_refl _
    rw [this]
  · have : replaceAllFuel p v (rest.length + 1) (c :: rest)
        = c :: replaceAllFuel p v rest.length rest := by
      show (if p.isPrefixOf (c :: rest) then
              v ++ replaceAllFuel p v rest.length (List.drop p.length (c :: rest))
            else c :: replaceAllFuel p v rest.length rest) = _
      rw [if_neg hpre]
    rw [this, if_neg hpre]
    rfl

/-! ## Occurrence testing

`occursIn p s` decides whether `p` occurs as a contiguous substring of `s`;
this is the notion of a token occurrence used throughout the claims. -/

def occursIn (p : Str) : Str → Bool
  | [] => p.isEmpty
  | c :: rest => p.isPrefixOf (c :: rest) || occursIn p rest

theorem isPrefixOf_mem {p s : Str} (h : p.isPrefixOf s = true) :
    ∀ c ∈ p, c ∈ s := by
  induction p generalizing s with
  | nil => intro c hc; exact absurd hc (List.not_mem_nil c)
  | cons a as ih =>
    cases s with
    | nil => exact absurd h (by simp [ List.isPrefixOf])
    | cons b bs =>
      simp only [ List.isPrefixOf, Bool.and_eq_true, beq_iff_eq] at h
      intro c hc
      rcases List.mem_cons.mp hc with hca | hcas
      · exact List.mem_cons.mpr (Or.inl (hca.trans h.1))
      · exact List.mem_cons.mpr (Or.inr (ih h.2 c hcas))

theorem occursIn_mem {p s : Str} (h : occursIn p s = true) :
    ∀ c ∈ p, c ∈ s := by
  induction s with
  | nil =>
    intro c hc
    have : p = [] := by
      simpa [occursIn, List.isEmpty_iff] using h
    subst this
    exact absurd hc (List.not_mem_nil c)
  | cons b bs ih =>
    simp only [occursIn, Bool.or_eq_true] at h
    intro c hc
    rcases h with h | h
    · exact isPrefixOf_mem h c hc
    · exact List.mem_cons.mpr (Or.inr (ih h c hc))

theorem replaceAll_of_not_occurs {p : Str} (v : Str) (hp : p ≠ []) :
    ∀ {s : Str}, occursIn p s = false → replaceAll p v s = s := by
  intro s
  induction s with
  | nil => intro _; rfl
  | cons c rest ih =>
    intro h
    simp only [occursIn, Bool.or_eq_false_iff] at h
    rw [replaceAll_cons p v hp, if_neg (by simp [h.1]), ih h.2]

/-! ## Prefix facts used to track occurrences through append -/

theorem bool_ne_true {b : Bool} (h : b = false) : ¬(b = true) := by
  subst h; exact Bool.false_ne_true

theorem isPrefixOf_append_self (p s : Str) : p.isPrefixOf (p ++ s) = true := by
  induction p with
  | nil =>
    show List.isPrefixOf [] s = true
    cases s <;> rfl
  | cons a as ih => simp [ List.isPrefixOf, ih]

theorem isPrefixOf_cons_of_ne {a b : Char} (as bs : Str) (h : a ≠ b) :
    (a :: as).isPrefixOf (b :: bs) = false := by
  simp [ List.isPrefixOf, h]

/-- If `p` is a prefix of `x ++ s` then the shorter of `p` and `x` is a
prefix of the other. -/
theorem isPrefixOf_append_or {p : Str} :
    ∀ {x s : Str}, p.isPrefixOf (x ++ s) = true →
      x.isPrefixOf p = true ∨ p.isPrefixOf x = true := by
  induction p with
  | nil =>
    intro x s _
    cases x with
    | nil => exact Or.inl rfl
    | cons b bs => exact Or.inr rfl
  | cons a as ih =>
    intro x s h
    cases x with
    | nil => exact Or.inl rfl
    | cons b bs =>
      simp only [List.cons_append, List.isPrefixOf, Bool.and_eq_true,
        beq_iff_eq] at h
      rcases ih h.2 with hl | hr
      · exact Or.inl (by simp [ List.isPrefixOf, h.1.symm, hl])
      · exact Or.inr (by simp [ List.isPrefixOf, h.1, hr])

/-- If no non-empty tail-piece of `x` starts an occurrence of `p` (even when
continued by `s`), then replacement passes over `x` untouched. -/
theorem replaceAll_append_of_no_match (p v : Str) (hp : p ≠ []) :
    ∀ (x s : Str),
      (∀ x₁ x₂, x = x₁ ++ x₂ → x₂ ≠ [] → p.isPrefixOf (x₂ ++ s) = false) →
      replaceAll p v (x ++ s) = x ++ replaceAll p v s := by
  intro x
  induction x with
  | nil => intro s _; rfl
  | cons c x0 ih =>
    intro s h
    have hhead : p.isPrefixOf ((c :: x0) ++ s) = false :=
      h [] (c :: x0) rfl (List.cons_ne_nil c x0)
    rw [List.cons_append] at hhead
    rw [List.cons_append, replaceAll_cons p v hp, if_neg (bool_ne_true hhead),
      ih s (fun x₁ x₂ hx hne => h (c :: x₁) x₂ (by rw [hx]; rfl) hne),
      List.cons_append]

/-- Replacement at an occurrence sitting at the front of the string. -/
theorem replaceAll_append_head (p v : Str) (hp : p ≠ []) (s : Str) :
    replaceAll p v (p ++ s) = v ++ replaceAll p v s := by
  cases p with
  | nil => exact absurd rfl hp
  | cons q p0 =>
    have hpre : (q :: p0).isPrefixOf (q :: (p0 ++ s)) = true := by
      have := isPrefixOf_append_self (q :: p0) s
      rwa [List.cons_append] at this
    rw [List.cons_append, replaceAll_cons (q :: p0) v hp, if_pos hpre]
    congr 1
    have hdrop : List.drop (q :: p0).length ((q :: p0) ++ s) = s :=
      List.drop_left _ _
    rw [← List.cons_append, hdrop]

/-! ## email_app.py — neutral tokens and the template renderer

Source: email_app.py, render_template (lines 91-103) and the neutral token
list (line 106).  The function starts from the template and, for each of
the five neutral token names A_01 .. A_05 in that order, replaces every
occurrence of the token spelling — the name wrapped in double curly
braces — with the text of the row cell at the token's mapped column when
that mapping is set (truthy in Python) and the column is present in the
row with a non-NaN value, and with the empty string otherwise.

A data row is modelled as a partial map from column name to cell text
(absent = missing column or NaN cell); the column mapping as a partial map
from token name to column name (absent = unmapped; the empty string is
falsy in Python, hence also treated as unmapped). -/

def NEUTRAL_TOKENS : List Str :=
  [chars "A_01", chars "A_02", chars "A_03", chars "A_04", chars "A_05"]

/-- The literal token spelling: two opening braces, the name, two closing
braces. -/
def tokenSpelling (name : Str) : Str := '{' :: '{' :: (name ++ ['}', '}'])

/-- The string substituted for one token: the mapped cell when the token is
mapped to a column present in the row (with a non-NaN value), otherwise the
empty string. -/
def tokenValue (data_row : Str → Option Str) (column_mappings : Str → Option Str)
    (token : Str) : Str :=
  match column_mappings token with
  | some col =>
    if col = [] then []
    else
      match data_row col with
      | some v => v
      | none => []
  | none => []

/-- email_app.py render_template: sequentially replace every occurrence of
each neutral token spelling with its value. -/
def render_template (template : Str) (data_row : Str → Option Str)
    (column_mappings : Str → Option Str) : Str :=
  NEUTRAL_TOKENS.foldl
    (fun rendered token =>
      replaceAll (tokenSpelling token) (tokenValue data_row column_mappings token) rendered)
    template

theorem tokenSpelling_ne_nil (name : Str) : tokenSpelling name ≠ [] := by
  simp [tokenSpelling]

/-- Folding replacement passes over a string in which none of the token
spellings occur leaves the string unchanged. -/
theorem renderFold_identity (vals : Str → Str) :
    ∀ (ns : List Str) (t : Str),
      (∀ n ∈ ns, occursIn (tokenSpelling n) t = false) →
      ns.foldl (fun r n => replaceAll (tokenSpelling n) (vals n) r) t = t := by
  intro ns
  induction ns with
  | nil => intro t _; rfl
  | cons n ns ih =>
    intro t h
    have h0 : occursIn (tokenSpelling n) t = false := h n (List.mem_cons_self n ns)
    have hstep : replaceAll (tokenSpelling n) (vals n) t = t :=
      replaceAll_of_not_occurs (vals n) (tokenSpelling_ne_nil n) h0
    show List.foldl _ (replaceAll (tokenSpelling n) (vals n) t) ns = t
    rw [hstep]
    exact ih t (fun m hm => h m (List.mem_cons_of_mem n hm))

/-- Claim C10: rendering is the identity on any template containing no
recognized placeholder token; tokens outside the fixed placeholder set and
all other text are left untouched byte for byte. -/
theorem claim10_render_identity (template : Str) (row cmap : Str → Option Str)
    (h : ∀ name ∈ NEUTRAL_TOKENS, occursIn (tokenSpelling name) template = false) :
    render_template template row cmap = template :=
  renderFold_identity (tokenValue row cmap) NEUTRAL_TOKENS template h

/-- Witness for C10: a template mentioning only the unknown token A_06 is
returned unchanged. -/
theorem claim10_witness :
    render_template (chars "Hello " ++ tokenSpelling (chars "A_06") ++ chars ", welcome.")
        (fun _ => none) (fun _ => none)
      = chars "Hello " ++ tokenSpelling (chars "A_06") ++ chars ", welcome." :=
  claim10_render_identity _ _ _ (by decide)

/-- Claim C1 is refuted at this concrete input: rendering the template
built as two opening braces, "A_0", a whole A_02 token, "1" and two closing
braces, under the empty value map, removes the inner A_02 token and splices
the surrounding text into a fresh A_01 token, so a known placeholder token
does occur in the rendered output. -/
theorem claim1_counterexample :
    chars "A_01" ∈ NEUTRAL_TOKENS
    ∧ render_template
        (['{', '{', 'A', '_', '0'] ++ tokenSpelling (chars "A_02") ++ ['1', '}', '}'])
        (fun _ => none) (fun _ => none)
      = tokenSpelling (chars "A_01")
    ∧ occursIn (tokenSpelling (chars "A_01"))
        (render_template
          (['{', '{', 'A', '_', '0'] ++ tokenSpelling (chars "A_02") ++ ['1', '}', '}'])
          (fun _ => none) (fun _ => none)) = true := by
  refine ⟨by decide, by decide, by decide⟩

/-! ## Structured templates

The unrestricted totality claim fails (claim1_counterexample): sequential
replacement can splice leftover template text, or substituted values, into a
fresh token occurrence.  The amended claim restricts attention to templates
assembled from whole token occurrences and brace-free literal chunks, with
brace-free substitution values; `Seg` is that assembly language. -/

inductive Seg
  | tk (name : Str)
  | lit (l : Str)
deriving DecidableEq

def flattenSegs : List Seg → Str
  | [] => []
  | Seg.tk n :: rest => tokenSpelling n ++ flattenSegs rest
  | Seg.lit l :: rest => l ++ flattenSegs rest

/-- A string without curly braces can neither contain nor help splice a
token occurrence. -/
def braceFree (l : Str) : Prop := ∀ c ∈ l, c ≠ '{' ∧ c ≠ '}'

instance (l : Str) : Decidable (braceFree l) :=
  inferInstanceAs (Decidable (∀ c ∈ l, c ≠ '{' ∧ c ≠ '}'))

def goodName (n : Str) : Prop := n ≠ [] ∧ braceFree n

instance (n : Str) : Decidable (goodName n) :=
  inferInstanceAs (Decidable (n ≠ [] ∧ braceFree n))

/-- Neither token spelling is a prefix of the other. -/
def spellingsIncompat (n m : Str) : Prop :=
  (tokenSpelling n).isPrefixOf (tokenSpelling m) = false ∧
  (tokenSpelling m).isPrefixOf (tokenSpelling n) = false

instance (n m : Str) : Decidable (spellingsIncompat n m) :=
  inferInstanceAs (Decidable (_ ∧ _))

def substSeg (n v : Str) : Seg → Seg
  | Seg.tk m => if m = n then Seg.lit v else Seg.tk m
  | Seg.lit l => Seg.lit l

def substMulti (vals : Str → Str) : List Str → List Seg → List Seg
  | [], segs => segs
  | n :: ns, segs => substMulti vals ns (segs.map (substSeg n (vals n)))

/-- Segment well-formedness for the amended claim: token segments carry a
known token name, literal segments are brace-free. -/
def segOk : Seg → Prop
  | Seg.tk m => m ∈ NEUTRAL_TOKENS
  | Seg.lit l => braceFree l

instance : DecidablePred segOk := fun s =>
  match s with
  | Seg.tk m => inferInstanceAs (Decidable (m ∈ NEUTRAL_TOKENS))
  | Seg.lit l => inferInstanceAs (Decidable (braceFree l))

theorem no_match_in_braceFree (p0 : Str) (l s : Str) (hl : braceFree l) :
    ∀ x₁ x₂, l = x₁ ++ x₂ → x₂ ≠ [] →
      ('{' :: p0).isPrefixOf (x₂ ++ s) = false := by
  intro x₁ x₂ hsplit hne
  cases x₂ with
  | nil => exact absurd rfl hne
  | cons d t =>
    have hd : d ∈ l := by
      rw [hsplit]
      exact List.mem_append_right x₁ (List.mem_cons_self d t)
    have hdne : d ≠ '{' := (hl d hd).1
    rw [List.cons_append]
    exact isPrefixOf_cons_of_ne _ _ (fun h => hdne h.symm)

theorem no_match_in_foreign_spelling (n m : Str) (hm : goodName m)
    (hinc : spellingsIncompat n m) (s : Str) :
    ∀ x₁ x₂, tokenSpelling m = x₁ ++ x₂ → x₂ ≠ [] →
      (tokenSpelling n).isPrefixOf (x₂ ++ s) = false := by
  intro x₁ x₂ hsplit hne
  cases x₁ with
  | nil =>
    have hx : x₂ = tokenSpelling m := by
      rw [hsplit]; rfl
    subst hx
    cases hb : (tokenSpelling n).isPrefixOf (tokenSpelling m ++ s) with
    | false => rfl
    | true =>
      rcases isPrefixOf_append_or hb with h1 | h2
      · exact absurd h1 (bool_ne_true hinc.2)
      · exact absurd h2 (bool_ne_true hinc.1)
  | cons c₁ x₁' =>
    have hts : '{' :: '{' :: (m ++ ['}', '}']) = c₁ :: (x₁' ++ x₂) := by
      rw [← List.cons_append]
      exact hsplit
    injection hts with hc₁ hts'
    cases x₁' with
    | nil =>
      have hx : x₂ = '{' :: (m ++ ['}', '}']) := by
        rw [hts']; rfl
      subst hx
      rcases List.exists_cons_of_ne_nil hm.1 with ⟨a, m', ha⟩
      have hane : '{' ≠ a := fun h => (hm.2 a (by rw [ha]; exact List.mem_cons_self a m')).1 h.symm
      show (tokenSpelling n).isPrefixOf ('{' :: ((m ++ ['}', '}']) ++ s)) = false
      show ('{' :: '{' :: (n ++ ['}', '}'])).isPrefixOf ('{' :: ((m ++ ['}', '}']) ++ s)) = false
      simp only [ List.isPrefixOf, beq_self_eq_true, Bool.true_and]
      rw [ha, List.cons_append, List.cons_append]
      exact isPrefixOf_cons_of_ne _ _ hane
    | cons c₂ x₁'' =>
      have hts'' : '{' :: (m ++ ['}', '}']) = c₂ :: (x₁'' ++ x₂) := by
        rw [← List.cons_append]
        exact hts'
      injection hts'' with hc₂ hcore
      cases x₂ with
      | nil => exact absurd rfl hne
      | cons d t =>
        have hd : d ∈ m ++ ['}', '}'] := by
          rw [hcore]
          exact List.mem_append_right x₁'' (List.mem_cons_self d t)
        have hdne : '{' ≠ d := by
          rcases List.mem_append.mp hd with h | h
          · exact fun hq => (hm.2 d h).1 hq.symm
          · intro hq
            have : d = '}' := by
              rcases List.mem_cons.mp h with h' | h'
              · exact h'
              · rcases List.mem_cons.mp h' with h'' | h''
                · exact h''
                · exact absurd h'' (List.not_mem_nil d)
            rw [this] at hq
            exact absurd hq (by decide)
        rw [List.cons_append]
        exact isPrefixOf_cons_of_ne _ _ hdne

/-- One replacement pass over a well-formed segment string substitutes
exactly the matching token segments. -/
theorem replaceAll_flattenSegs (n v : Str) (hn : goodName n) :
    ∀ segs : List Seg,
      (∀ m, Seg.tk m ∈ segs → goodName m ∧ (m = n ∨ spellingsIncompat n m)) →
      (∀ l, Seg.lit l ∈ segs → braceFree l) →
      replaceAll (tokenSpelling n) v (flattenSegs segs)
        = flattenSegs (segs.map (substSeg n v)) := by
  intro segs
  induction segs with
  | nil => intro _ _; rfl
  | cons seg rest ih =>
    intro htk hlit
    have ihr := ih (fun m hm => htk m (List.mem_cons_of_mem _ hm))
                   (fun l hl => hlit l (List.mem_cons_of_mem _ hl))
    cases seg with
    | lit l =>
      have hl : braceFree l := hlit l (List.mem_cons_self _ _)
      show replaceAll (tokenSpelling n) v (l ++ flattenSegs rest)
          = flattenSegs (Seg.lit l :: rest.map (substSeg n v))
      rw [replaceAll_append_of_no_match _ _ (tokenSpelling_ne_nil n) l _
            (fun x₁ x₂ hx hne =>
              no_match_in_braceFree ('{' :: (n ++ ['}', '}'])) l _ hl x₁ x₂ hx hne),
          ihr]
      rfl
    | tk m =>
      rcases htk m (List.mem_cons_self _ _) with ⟨hgm, hcase⟩
      by_cases hem : m = n
      · subst hem
        show replaceAll (tokenSpelling m) v (tokenSpelling m ++ flattenSegs rest)
            = flattenSegs ((Seg.tk m :: rest).map (substSeg m v))
        rw [replaceAll_append_head _ _ (tokenSpelling_ne_nil m), ihr, List.map_cons]
        have hsub : substSeg m v (Seg.tk m) = Seg.lit v := by
          simp [substSeg]
        rw [hsub]
        rfl
      · have hinc : spellingsIncompat n m := hcase.resolve_left hem
        show replaceAll (tokenSpelling n) v (tokenSpelling m ++ flattenSegs rest)
            = flattenSegs ((Seg.tk m :: rest).map (substSeg n v))
        rw [replaceAll_append_of_no_match _ _ (tokenSpelling_ne_nil n) _ _
              (fun x₁ x₂ hx hne =>
                no_match_in_foreign_spelling n m hgm hinc _ x₁ x₂ hx hne),
            ihr, List.map_cons]
        have hsub : substSeg n v (Seg.tk m) = Seg.tk m := by
          simp [substSeg, hem]
        rw [hsub]
        rfl

/-- The whole rendering fold over a well-formed segment string equals
segment-wise substitution. -/
theorem renderFold_flattenSegs (vals : Str → Str) :
    ∀ (ns : List Str) (segs : List Seg),
      (∀ n ∈ ns, goodName n) →
      (∀ m, Seg.tk m ∈ segs → goodName m ∧ ∀ n ∈ ns, m = n ∨ spellingsIncompat n m) →
      (∀ l, Seg.lit l ∈ segs → braceFree l) →
      (∀ n ∈ ns, braceFree (vals n)) →
      ns.foldl (fun r n => replaceAll (tokenSpelling n) (vals n) r) (flattenSegs segs)
        = flattenSegs (substMulti vals ns segs) := by
  intro ns
  induction ns with
  | nil => intro segs _ _ _ _; rfl
  | cons n ns ih =>
    intro segs hns htk hlit hvals
    show List.foldl _ (replaceAll (tokenSpelling n) (vals n) (flattenSegs segs)) ns
        = flattenSegs (substMulti vals ns (segs.map (substSeg n (vals n))))
    rw [replaceAll_flattenSegs n (vals n) (hns n (List.mem_cons_self n ns)) segs
          (fun m hm => ⟨(htk m hm).1, (htk m hm).2 n (List.mem_cons_self n ns)⟩) hlit]
    apply ih (segs.map (substSeg n (vals n)))
      (fun m hm => hns m (List.mem_cons_of_mem n hm))
    · intro m hm
      rcases List.mem_map.mp hm with ⟨s₀, hs₀, hss⟩
      cases s₀ with
      | lit l => exact absurd hss (by simp [substSeg])
      | tk m₀ =>
        by_cases he : m₀ = n
        · exact absurd hss (by simp [substSeg, he])
        · have hmm : m₀ = m := by
            have : substSeg n (vals n) (Seg.tk m₀) = Seg.tk m₀ := by simp [substSeg, he]
            rw [this] at hss
            injection hss
          subst hmm
          exact ⟨(htk m₀ hs₀).1,
            fun n' hn' => (htk m₀ hs₀).2 n' (List.mem_cons_of_mem n hn')⟩
    · intro l hl
      rcases List.mem_map.mp hl with ⟨s₀, hs₀, hss⟩
      cases s₀ with
      | lit l₀ =>
        have : l₀ = l := by
          have h0 : substSeg n (vals n) (Seg.lit l₀) = Seg.lit l₀ := by simp [substSeg]
          rw [h0] at hss
          injection hss
        exact this ▸ hlit l₀ hs₀
      | tk m₀ =>
        by_cases he : m₀ = n
        · have : vals n = l := by
            have h0 : substSeg n (vals n) (Seg.tk m₀) = Seg.lit (vals n) := by
              simp [substSeg, he]
            rw [h0] at hss
            injection hss
          subst this
          exact hvals n (List.mem_cons_self n ns)
        · exact absurd hss (by simp [substSeg, he])
    · intro n' hn'
      exact hvals n' (List.mem_cons_of_mem n hn')

theorem substMulti_no_tk (vals : Str → Str) :
    ∀ (ns : List Str) (segs : List Seg),
      (∀ m, Seg.tk m ∈ segs → m ∈ ns) →
      ∀ m, ¬ Seg.tk m ∈ substMulti vals ns segs := by
  intro ns
  induction ns with
  | nil =>
    intro segs h m hm
    exact absurd (h m hm) (List.not_mem_nil m)
  | cons n ns ih =>
    intro segs h m
    apply ih
    intro m₀ hm₀
    rcases List.mem_map.mp hm₀ with ⟨s₀, hs₀, hss⟩
    cases s₀ with
    | lit l => exact absurd hss (by simp [substSeg])
    | tk m₁ =>
      by_cases he : m₁ = n
      · exact absurd hss (by simp [substSeg, he])
      · have : m₁ = m₀ := by
          have h0 : substSeg n (vals n) (Seg.tk m₁) = Seg.tk m₁ := by simp [substSeg, he]
          rw [h0] at hss
          injection hss
        subst this
        rcases List.mem_cons.mp (h m₁ hs₀) with h' | h'
        · exact absurd h' he
        · exact h'

theorem substMulti_lit_braceFree (vals : Str → Str) :
    ∀ (ns : List Str) (segs : List Seg),
      (∀ l, Seg.lit l ∈ segs → braceFree l) →
      (∀ n ∈ ns, braceFree (vals n)) →
      ∀ l, Seg.lit l ∈ substMulti vals ns segs → braceFree l := by
  intro ns
  induction ns with
  | nil => intro segs hlit _ l hl; exact hlit l hl
  | cons n ns ih =>
    intro segs hlit hvals l hl
    refine ih (segs.map (substSeg n (vals n))) ?_ (fun n' hn' => hvals n' (List.mem_cons_of_mem n hn')) l hl
    intro l₀ hl₀
    rcases List.mem_map.mp hl₀ with ⟨s₀, hs₀, hss⟩
    cases s₀ with
    | lit l₁ =>
      have : l₁ = l₀ := by
        have h0 : substSeg n (vals n) (Seg.lit l₁) = Seg.lit l₁ := by simp [substSeg]
        rw [h0] at hss
        injection hss
      subst this
      exact hlit l₁ hs₀
    | tk m₁ =>
      by_cases he : m₁ = n
      · have : vals n = l₀ := by
          have h0 : substSeg n (vals n) (Seg.tk m₁) = Seg.lit (vals n) := by
            simp [substSeg, he]
          rw [h0] at hss
          injection hss
        subst this
        exact hvals n (List.mem_cons_self n ns)
      · exact absurd hss (by simp [substSeg, he])

theorem flattenSegs_braceFree :
    ∀ segs : List Seg,
      (∀ l, Seg.lit l ∈ segs → braceFree l) →
      (∀ m, ¬ Seg.tk m ∈ segs) →
      braceFree (flattenSegs segs) := by
  intro segs
  induction segs with
  | nil => intro _ _ c hc; exact absurd hc (List.not_mem_nil c)
  | cons seg rest ih =>
    intro hlit htk
    cases seg with
    | tk m => exact absurd (List.mem_cons_self _ _) (htk m)
    | lit l =>
      intro c hc
      rcases List.mem_append.mp hc with h | h
      · exact hlit l (List.mem_cons_self _ _) c h
      · exact ih (fun l' hl' => hlit l' (List.mem_cons_of_mem _ hl'))
          (fun m hm => htk m (List.mem_cons_of_mem _ hm)) c h

theorem braceFree_no_token (w : Str) (hw : braceFree w) (n : Str) :
    occursIn (tokenSpelling n) w = false := by
  cases hocc : occursIn (tokenSpelling n) w with
  | false => rfl
  | true =>
    have hbr : '{' ∈ w := occursIn_mem hocc '{' (by simp [tokenSpelling])
    exact absurd rfl ((hw '{' hbr).1)

/-- Claim C1 (amended): on any template assembled from whole known-token
occurrences and brace-free literal chunks, and for any value map whose
effective substitution values are brace-free, rendering substitutes every
token occurrence (with the mapped value when present, the empty string
otherwise) and the rendered output contains no occurrence of any known
placeholder token.  The unrestricted claim is refuted by
claim1_counterexample. -/
theorem claim1_amended_token_totality (segs : List Seg) (row cmap : Str → Option Str)
    (hseg : ∀ s ∈ segs, segOk s)
    (hvals : ∀ n ∈ NEUTRAL_TOKENS, braceFree (tokenValue row cmap n)) :
    render_template (flattenSegs segs) row cmap
        = flattenSegs (substMulti (tokenValue row cmap) NEUTRAL_TOKENS segs)
    ∧ ∀ n ∈ NEUTRAL_TOKENS,
        occursIn (tokenSpelling n) (render_template (flattenSegs segs) row cmap) = false := by
  have hsegTk : ∀ m, Seg.tk m ∈ segs → m ∈ NEUTRAL_TOKENS := fun m hm => hseg (Seg.tk m) hm
  have hsegLit : ∀ l, Seg.lit l ∈ segs → braceFree l := fun l hl => hseg (Seg.lit l) hl
  have hng : ∀ n ∈ NEUTRAL_TOKENS, goodName n := by decide
  have hpair : ∀ m ∈ NEUTRAL_TOKENS, ∀ n ∈ NEUTRAL_TOKENS, m = n ∨ spellingsIncompat n m := by
    decide
  have heq : render_template (flattenSegs segs) row cmap
      = flattenSegs (substMulti (tokenValue row cmap) NEUTRAL_TOKENS segs) :=
    renderFold_flattenSegs (tokenValue row cmap) NEUTRAL_TOKENS segs hng
      (fun m hm => ⟨hng m (hsegTk m hm), hpair m (hsegTk m hm)⟩) hsegLit hvals
  refine ⟨heq, fun n _ => ?_⟩
  rw [heq]
  exact braceFree_no_token _
    (flattenSegs_braceFree _
      (substMulti_lit_braceFree (tokenValue row cmap) NEUTRAL_TOKENS segs hsegLit hvals)
      (substMulti_no_tk (tokenValue row cmap) NEUTRAL_TOKENS segs hsegTk)) n

/-- Witness for the amended C1: a two-chunk template around one A_01 token,
rendered with A_01 mapped to a populated column. -/
theorem claim1_witness :
    render_template
        (flattenSegs [Seg.lit (chars "Hi "), Seg.tk (chars "A_01"), Seg.lit (chars ", bye.")])
        (fun c => if c = chars "name" then some (chars "Ada") else none)
        (fun t => if t = chars "A_01" then some (chars "name") else none)
      = flattenSegs (substMulti
          (tokenValue (fun c => if c = chars "name" then some (chars "Ada") else none)
            (fun t => if t = chars "A_01" then some (chars "name") else none))
          NEUTRAL_TOKENS
          [Seg.lit (chars "Hi "), Seg.tk (chars "A_01"), Seg.lit (chars ", bye.")])
    ∧ occursIn (tokenSpelling (chars "A_01"))
        (render_template
          (flattenSegs [Seg.lit (chars "Hi "), Seg.tk (chars "A_01"), Seg.lit (chars ", bye.")])
          (fun c => if c = chars "name" then some (chars "Ada") else none)
          (fun t => if t = chars "A_01" then some (chars "name") else none)) = false := by
  have h := claim1_amended_token_totality
    [Seg.lit (chars "Hi "), Seg.tk (chars "A_01"), Seg.lit (chars ", bye.")]
    (fun c => if c = chars "name" then some (chars "Ada") else none)
    (fun t => if t = chars "A_01" then some (chars "name") else none)
    (by decide) (by decide)
  exact ⟨h.1, h.2 (chars "A_01") (by decide)⟩

/-! ## Splitting at the first / last occurrence of a character -/

def splitAtFirst (x : Char) : Str → Option (Str × Str)
  | [] => none
  | c :: rest =>
    if c = x then some ([], rest)
    else
      match splitAtFirst x rest with
      | some (a, b) => some (c :: a, b)
      | none => none

def splitAtLast (x : Char) (s : Str) : Option (Str × Str) :=
  match splitAtFirst x s.reverse with
  | none => none
  | some (a, b) => some (b.reverse, a.reverse)

theorem splitAtFirst_eq_some {x : Char} :
    ∀ {s a b : Str}, splitAtFirst x s = some (a, b) → s = a ++ x :: b ∧ x ∉ a := by
  intro s
  induction s with
  | nil => intro a b h; exact absurd h (by simp [splitAtFirst])
  | cons c rest ih =>
    intro a b h
    by_cases hcx : c = x
    · rw [splitAtFirst, if_pos hcx] at h
      injection h with h
      injection h with h₁ h₂
      subst h₁; subst h₂; subst hcx
      exact ⟨rfl, List.not_mem_nil _⟩
    · rw [splitAtFirst, if_neg hcx] at h
      cases hr : splitAtFirst x rest with
      | none => rw [hr] at h; exact absurd h (by simp)
      | some ab =>
        rcases ab with ⟨a', b'⟩
        rw [hr] at h
        injection h with h
        injection h with h₁ h₂
        subst h₁; subst h₂
        rcases ih hr with ⟨hre, hnm⟩
        constructor
        · rw [List.cons_append, ← hre]
        · intro hx
          rcases List.mem_cons.mp hx with h' | h'
          · exact hcx h'.symm
          · exact hnm h'

theorem splitAtFirst_of_decomp {x : Char} :
    ∀ {a : Str} (b : Str), x ∉ a → splitAtFirst x (a ++ x :: b) = some (a, b) := by
  intro a
  induction a with
  | nil => intro b _; simp [splitAtFirst]
  | cons c a' ih =>
    intro b hx
    have hcx : ¬ c = x := fun h => hx (by rw [h]; exact List.mem_cons_self x a')
    have hx' : x ∉ a' := fun h => hx (List.mem_cons_of_mem c h)
    rw [List.cons_append, splitAtFirst, if_neg hcx, ih b hx']

theorem splitAtLast_eq_some {x : Char} {s a b : Str}
    (h : splitAtLast x s = some (a, b)) : s = a ++ x :: b ∧ x ∉ b := by
  rw [splitAtLast] at h
  cases hr : splitAtFirst x s.reverse with
  | none => rw [hr] at h; exact absurd h (by simp)
  | some ab =>
    rcases ab with ⟨a', b'⟩
    rw [hr] at h
    injection h with h
    injection h with h₁ h₂
    subst h₁; subst h₂
    rcases splitAtFirst_eq_some hr with ⟨hre, hnm⟩
    constructor
    · have := congrArg List.reverse hre
      rw [List.reverse_reverse, List.reverse_append, List.reverse_cons,
        List.append_assoc] at this
      rw [this]
      simp
    · intro hx
      exact hnm (List.mem_reverse.mp hx)

theorem splitAtLast_of_decomp {x : Char} (a : Str) {b : Str} (hb : x ∉ b) :
    splitAtLast x (a ++ x :: b) = some (a, b) := by
  have hrev : (a ++ x :: b).reverse = b.reverse ++ x :: a.reverse := by
    rw [List.reverse_append, List.reverse_cons, List.append_assoc]
    rfl
  have hnb : x ∉ b.reverse := fun h => hb (List.mem_reverse.mp h)
  rw [splitAtLast, hrev, splitAtFirst_of_decomp a.reverse hnb]
  show some ((List.reverse a).reverse, (List.reverse b).reverse) = some (a, b)
  rw [List.reverse_reverse, List.reverse_reverse]

/-! ## Email-syntax validation

F_EMAIL.py lines 669-672 (identical in QAQA.py lines 492-494 and in
GEMEME.py): the method returns False for a falsy or non-string input and
otherwise matches the string, anchored at both ends, against the regex
built of: one or more characters from the class letters, digits, dot,
underscore, percent, plus, hyphen; an at-sign; one or more characters from
the class letters, digits, dot, hyphen; a literal dot; and at least two
ASCII letters.

The character classes below are those of the regex.  Because the
local-part and domain classes exclude the at-sign, and the final label
class excludes the dot, the nondeterministic regex match is equivalent to
the deterministic procedure: split at the first at-sign, split the
remainder at the last dot, and check the three segments.  The Python
dollar anchor (without MULTILINE) also matches just before one trailing
newline, which the wrapper is_valid_email reproduces. -/

def isLocalChar (c : Char) : Bool :=
  c.isAlphanum || c == '.' || c == '_' || c == '%' || c == '+' || c == '-'

def isDomainChar (c : Char) : Bool :=
  c.isAlphanum || c == '.' || c == '-'

def is_valid_email_core (s : Str) : Bool :=
  match splitAtFirst '@' s with
  | none => false
  | some (a, r) =>
    match splitAtLast '.' r with
    | none => false
    | some (b, c) =>
      !a.isEmpty && a.all isLocalChar && !b.isEmpty && b.all isDomainChar
        && decide (2 ≤ c.length) && c.all Char.isAlpha

/-- The validator shared by the F_EMAIL/QAQA/GEMEME variants
(source name `_is_valid_email`). -/
def is_valid_email (s : Str) : Bool :=
  if s.getLast? = some '\n' then is_valid_email_core s.dropLast
  else is_valid_email_core s

/-- The language of the anchored regex, read nondeterministically. -/
def emailRegexCore (s : Str) : Prop :=
  ∃ a b c : Str,
    s = a ++ '@' :: (b ++ '.' :: c)
    ∧ a ≠ [] ∧ (∀ ch ∈ a, isLocalChar ch = true)
    ∧ b ≠ [] ∧ (∀ ch ∈ b, isDomainChar ch = true)
    ∧ 2 ≤ c.length ∧ (∀ ch ∈ c, ch.isAlpha = true)

/-- The language accepted by `re.match(pattern, s)` where the pattern is
anchored with a caret and a dollar: the core language, optionally followed
by a single trailing newline. -/
def emailRegexLang (s : Str) : Prop :=
  emailRegexCore s ∨ ∃ t : Str, s = t ++ ['\n'] ∧ emailRegexCore t

theorem ne_nil_of_isEmpty_false {l : Str} (h : l.isEmpty = false) : l ≠ [] := by
  cases l with
  | nil => exact absurd h (by decide)
  | cons a as => exact List.cons_ne_nil a as

theorem isEmpty_false_of_ne_nil {l : Str} (h : l ≠ []) : l.isEmpty = false := by
  cases l with
  | nil => exact absurd rfl h
  | cons a as => rfl

theorem getLastQ_cons_cons (a b : Char) (l : Str) :
    (a :: b :: l).getLast? = (b :: l).getLast? := rfl

theorem getLastQ_append_right (u : Str) : ∀ {v : Str}, v ≠ [] →
    (u ++ v).getLast? = v.getLast? := by
  induction u with
  | nil => intro v _; rfl
  | cons c u' ih =>
    intro v hv
    have h1 : u' ++ v ≠ [] := fun h => hv (List.append_eq_nil.mp h).2
    cases huv : u' ++ v with
    | nil => exact absurd huv h1
    | cons w ws =>
      calc ((c :: u') ++ v).getLast? = (c :: (u' ++ v)).getLast? := rfl
        _ = (c :: w :: ws).getLast? := by rw [huv]
        _ = (w :: ws).getLast? := getLastQ_cons_cons c w ws
        _ = (u' ++ v).getLast? := by rw [huv]
        _ = v.getLast? := ih hv

theorem eq_concat_of_getLastQ : ∀ {s : Str} {c : Char},
    s.getLast? = some c → s = s.dropLast ++ [c] := by
  intro s
  induction s with
  | nil => intro c h; exact absurd h (by simp)
  | cons a s' ih =>
    intro c h
    cases s' with
    | nil =>
      have hac : a = c := by
        have : some a = some c := h
        injection this
      subst hac
      rfl
    | cons b s'' =>
      have h' : (b :: s'').getLast? = some c := h
      have hrec := ih h'
      calc a :: b :: s''
          = a :: ((b :: s'').dropLast ++ [c]) := by rw [← hrec]
        _ = (a :: b :: s'').dropLast ++ [c] := rfl

theorem is_valid_email_core_iff (s : Str) :
    is_valid_email_core s = true ↔ emailRegexCore s := by
  constructor
  · intro h
    cases h₁ : splitAtFirst '@' s with
    | none =>
      simp only [is_valid_email_core, h₁] at h
      exact Bool.noConfusion h
    | some ar =>
      rcases ar with ⟨a, r⟩
      cases h₂ : splitAtLast '.' r with
      | none =>
        simp only [is_valid_email_core, h₁, h₂] at h
        exact Bool.noConfusion h
      | some bc =>
        rcases bc with ⟨b, c⟩
        simp only [is_valid_email_core, h₁, h₂] at h
        simp only [Bool.and_eq_true, Bool.not_eq_true', List.all_eq_true,
          decide_eq_true_eq] at h
        rcases h with ⟨⟨⟨⟨⟨ha₁, ha₂⟩, hb₁⟩, hb₂⟩, hc₁⟩, hc₂⟩
        rcases splitAtFirst_eq_some h₁ with ⟨hs₁, _⟩
        rcases splitAtLast_eq_some h₂ with ⟨hs₂, _⟩
        refine ⟨a, b, c, ?_, ne_nil_of_isEmpty_false ha₁, ha₂,
          ne_nil_of_isEmpty_false hb₁, hb₂, hc₁, hc₂⟩
        rw [hs₁, hs₂]
  · rintro ⟨a, b, c, hs, ha₁, ha₂, hb₁, hb₂, hc₁, hc₂⟩
    have hna : '@' ∉ a := fun hm => absurd (ha₂ '@' hm) (by decide)
    have hnc : '.' ∉ c := fun hm => absurd (hc₂ '.' hm) (by decide)
    subst hs
    have h₁ : splitAtFirst '@' (a ++ '@' :: (b ++ '.' :: c)) = some (a, b ++ '.' :: c) :=
      splitAtFirst_of_decomp _ hna
    have h₂ : splitAtLast '.' (b ++ '.' :: c) = some (b, c) :=
      splitAtLast_of_decomp b hnc
    simp only [is_valid_email_core, h₁, h₂]
    simp only [Bool.and_eq_true, Bool.not_eq_true', List.all_eq_true,
      decide_eq_true_eq]
    exact ⟨⟨⟨⟨⟨isEmpty_false_of_ne_nil ha₁, ha₂⟩,
      isEmpty_false_of_ne_nil hb₁⟩, hb₂⟩, hc₁⟩, hc₂⟩

theorem emailRegexCore_getLast {s : Str} (h : emailRegexCore s) :
    s.getLast? ≠ some '\n' := by
  rcases h with ⟨a, b, c, hs, -, -, -, -, hc₁, hc₂⟩
  have hcne : c ≠ [] := by
    intro h0; rw [h0] at hc₁; exact absurd hc₁ (by decide)
  subst hs
  intro hcontra
  have h1 : (a ++ '@' :: (b ++ '.' :: c)).getLast? = c.getLast? := by
    rw [getLastQ_append_right a (by simp)]
    rw [show ('@' :: (b ++ '.' :: c) : Str) = ('@' :: b) ++ ('.' :: c) from by simp]
    rw [getLastQ_append_right ('@' :: b) (by simp)]
    rw [show ('.' :: c : Str) = ['.'] ++ c from rfl]
    rw [getLastQ_append_right ['.'] hcne]
  rw [h1] at hcontra
  have hmem : '\n' ∈ c := by
    have hc := eq_concat_of_getLastQ hcontra
    rw [hc]
    exact List.mem_append_right _ (List.mem_cons_self _ _)
  exact absurd (hc₂ '\n' hmem) (by decide)

theorem dropLast_concat_char (t : Str) (c : Char) : (t ++ [c]).dropLast = t := by
  induction t with
  | nil => rfl
  | cons a t' ih =>
    cases ht : t' ++ [c] with
    | nil => exact absurd ht (by simp)
    | cons w ws =>
      calc ((a :: t') ++ [c]).dropLast
          = (a :: (t' ++ [c])).dropLast := rfl
        _ = (a :: w :: ws).dropLast := by rw [ht]
        _ = a :: (w :: ws).dropLast := rfl
        _ = a :: (t' ++ [c]).dropLast := by rw [ht]
        _ = a :: t' := by rw [ih]

theorem is_valid_email_iff (s : Str) :
    is_valid_email s = true ↔ emailRegexLang s := by
  by_cases hlast : s.getLast? = some '\n'
  · rw [is_valid_email, if_pos hlast]
    constructor
    · intro h
      exact Or.inr ⟨s.dropLast, eq_concat_of_getLastQ hlast,
        (is_valid_email_core_iff _).mp h⟩
    · rintro (hcore | ⟨t, hteq, hcore⟩)
      · exact absurd hlast (emailRegexCore_getLast hcore)
      · have hdl : s.dropLast = t := by rw [hteq, dropLast_concat_char]
        rw [hdl]
        exact (is_valid_email_core_iff t).mpr hcore
  · rw [is_valid_email, if_neg hlast]
    constructor
    · intro h
      exact Or.inl ((is_valid_email_core_iff s).mp h)
    · rintro (hcore | ⟨t, hteq, hcore⟩)
      · exact (is_valid_email_core_iff s).mpr hcore
      · exfalso
        apply hlast
        rw [hteq, getLastQ_append_right t (by simp)]
        rfl

/-! ## email_app.py inline validation

email_app.py line 293 (bulk loop) and line 360 (manual send) check
recipients with

    re.match(pattern, str(recipient_email))

where the pattern is: one or more non-at characters, an at-sign, one or
more non-at characters, a dot, one or more non-at characters — with no
trailing anchor, so it accepts any string with a prefix of that shape.
`lookDot` scans the part after the first at-sign for a dot that is preceded
only by non-at characters (at least one) and followed by one non-at
character. -/

def nextNotAt : Str → Bool
  | [] => false
  | d :: _ => d != '@'

def lookDot : Str → Bool
  | [] => false
  | c :: rest =>
    if c = '@' then false
    else if c = '.' then nextNotAt rest
    else lookDot rest

def tailAfterAt : Str → Bool
  | [] => false
  | c :: rest => if c = '@' then false else lookDot rest

/-- The recipient check used by the email_app.py (web) pipelines. -/
def emailAppValid (s : Str) : Bool :=
  match splitAtFirst '@' s with
  | none => false
  | some (a, r) => !a.isEmpty && tailAfterAt r

/-- The language of the unanchored pattern of email_app.py. -/
def emailAppLang (s : Str) : Prop :=
  ∃ (a b : Str) (c : Char) (rest : Str),
    s = a ++ '@' :: (b ++ '.' :: c :: rest)
    ∧ a ≠ [] ∧ '@' ∉ a ∧ b ≠ [] ∧ '@' ∉ b ∧ c ≠ '@'

theorem lookDot_iff : ∀ r : Str,
    lookDot r = true ↔
      ∃ (b : Str) (c : Char) (rest : Str),
        r = b ++ '.' :: c :: rest ∧ '@' ∉ b ∧ c ≠ '@' := by
  intro r
  induction r with
  | nil =>
    constructor
    · intro h; exact absurd h (by decide)
    · rintro ⟨b, c, rest, hr, -, -⟩
      exact absurd hr (by simp)
  | cons c₀ rest₀ ih =>
    constructor
    · intro h
      by_cases hat : c₀ = '@'
      · rw [lookDot, if_pos hat] at h
        exact Bool.noConfusion h
      · by_cases hdot : c₀ = '.'
        · rw [lookDot, if_neg hat, if_pos hdot] at h
          cases rest₀ with
          | nil => exact Bool.noConfusion h
          | cons d r' =>
            have hd : d ≠ '@' := by simpa [nextNotAt] using h
            exact ⟨[], d, r', by rw [hdot, List.nil_append], List.not_mem_nil _, hd⟩
        · rw [lookDot, if_neg hat, if_neg hdot] at h
          rcases (ih).mp h with ⟨b, c, rest, hr, hnb, hc⟩
          refine ⟨c₀ :: b, c, rest, by rw [List.cons_append, hr], ?_, hc⟩
          intro hm
          rcases List.mem_cons.mp hm with hm | hm
          · exact hat hm.symm
          · exact hnb hm
    · rintro ⟨b, c, rest, hr, hnb, hc⟩
      cases b with
      | nil =>
        have h0 : c₀ = '.' ∧ rest₀ = c :: rest := by
          rw [List.nil_append] at hr
          exact ⟨by injection hr, by injection hr⟩
        rcases h0 with ⟨h1, h2⟩
        rw [lookDot, if_neg (by rw [h1]; decide), if_pos h1, h2]
        simpa [nextNotAt] using hc
      | cons d b' =>
        have hd : d ≠ '@' := fun h0 => hnb (by rw [h0]; exact List.mem_cons_self _ _)
        have hnb' : '@' ∉ b' := fun h0 => hnb (List.mem_cons_of_mem d h0)
        have h0 : c₀ = d ∧ rest₀ = b' ++ '.' :: c :: rest := by
          rw [List.cons_append] at hr
          exact ⟨by injection hr, by injection hr⟩
        rcases h0 with ⟨h1, h2⟩
        subst h1; subst h2
        rw [lookDot, if_neg hd]
        by_cases hdot : c₀ = '.'
        · rw [if_pos hdot]
          cases b' with
          | nil => simp [nextNotAt]
          | cons e b'' =>
            have he : e ≠ '@' := fun h0 => hnb' (by rw [h0]; exact List.mem_cons_self _ _)
            simpa [nextNotAt] using he
        · rw [if_neg hdot]
          exact ih.mpr ⟨b', c, rest, rfl, hnb', hc⟩

theorem tailAfterAt_iff (r : Str) :
    tailAfterAt r = true ↔
      ∃ (b : Str) (c : Char) (rest : Str),
        r = b ++ '.' :: c :: rest ∧ b ≠ [] ∧ '@' ∉ b ∧ c ≠ '@' := by
  cases r with
  | nil =>
    constructor
    · intro h; exact absurd h (by decide)
    · rintro ⟨b, c, rest, hr, -, -, -⟩
      exact absurd hr (by simp)
  | cons c₀ rest₀ =>
    constructor
    · intro h
      by_cases hat : c₀ = '@'
      · rw [tailAfterAt, if_pos hat] at h
        exact Bool.noConfusion h
      · rw [tailAfterAt, if_neg hat] at h
        rcases (lookDot_iff rest₀).mp h with ⟨b', c, rest, hr, hnb, hc⟩
        refine ⟨c₀ :: b', c, rest, by rw [List.cons_append, hr],
          List.cons_ne_nil _ _, ?_, hc⟩
        intro hm
        rcases List.mem_cons.mp hm with hm | hm
        · exact hat hm.symm
        · exact hnb hm
    · rintro ⟨b, c, rest, hr, hbne, hnb, hc⟩
      cases b with
      | nil => exact absurd rfl hbne
      | cons d b' =>
        have hd : d ≠ '@' := fun h0 => hnb (by rw [h0]; exact List.mem_cons_self _ _)
        have hnb' : '@' ∉ b' := fun h0 => hnb (List.mem_cons_of_mem d h0)
        have h0 : c₀ = d ∧ rest₀ = b' ++ '.' :: c :: rest := by
          rw [List.cons_append] at hr
          exact ⟨by injection hr, by injection hr⟩
        rcases h0 with ⟨h1, h2⟩
        subst h1; subst h2
        rw [tailAfterAt, if_neg hd]
        exact (lookDot_iff _).mpr ⟨b', c, rest, rfl, hnb', hc⟩

theorem emailAppValid_iff (s : Str) :
    emailAppValid s = true ↔ emailAppLang s := by
  constructor
  · intro h
    cases h₁ : splitAtFirst '@' s with
    | none =>
      simp only [emailAppValid, h₁] at h
      exact Bool.noConfusion h
    | some ar =>
      rcases ar with ⟨a, r⟩
      simp only [emailAppValid, h₁, Bool.and_eq_true, Bool.not_eq_true'] at h
      rcases h with ⟨ha, hr⟩
      rcases splitAtFirst_eq_some h₁ with ⟨hs, hna⟩
      rcases (tailAfterAt_iff r).mp hr with ⟨b, c, rest, hrr, hbne, hnb, hc⟩
      exact ⟨a, b, c, rest, by rw [hs, hrr], ne_nil_of_isEmpty_false ha, hna, hbne, hnb, hc⟩
  · rintro ⟨a, b, c, rest, hs, hane, hna, hbne, hnb, hc⟩
    subst hs
    have h₁ : splitAtFirst '@' (a ++ '@' :: (b ++ '.' :: c :: rest))
        = some (a, b ++ '.' :: c :: rest) := splitAtFirst_of_decomp _ hna
    simp only [emailAppValid, h₁, Bool.and_eq_true, Bool.not_eq_true']
    exact ⟨isEmpty_false_of_ne_nil hane,
      (tailAfterAt_iff _).mpr ⟨b, c, rest, rfl, hbne, hnb, hc⟩⟩

/-- Modelled from the spec words of section 4.3, as quoted by claim C8: a
value is shaped like local-part at domain dot tld when it has at least one
at-sign, the domain part (after the at-sign) contains at least one dot, and
the final label after the last dot has at least two characters. -/
def specShapedEmail (s : Str) : Bool :=
  match splitAtFirst '@' s with
  | none => false
  | some (_, domain) =>
    match splitAtLast '.' domain with
    | none => false
    | some (_, label) => decide (2 ≤ label.length)

/-- Claim C8 is refuted at the concrete input "a b@c.de": the string is
shaped as the claim describes (one at-sign, a dotted domain, a two-letter
final label), yet the F_EMAIL/QAQA validator rejects it (the space is
outside the local-part character class of the regex), while the email_app
pipeline accepts it — so the stated iff fails and the pipelines are not
governed by one predicate. -/
theorem claim8_counterexample :
    specShapedEmail (chars "a b@c.de") = true
    ∧ is_valid_email (chars "a b@c.de") = false
    ∧ emailAppValid (chars "a b@c.de") = true := by
  refine ⟨by decide, by decide, by decide⟩

/-- Claim C8 (amended): the F_EMAIL/QAQA/GEMEME validator accepts exactly
the strings of the form local at-sign domain dot label where the local part
is a non-empty run over the regex class letters/digits/dot/underscore/
percent/plus/hyphen, the domain is a non-empty run over letters/digits/dot/
hyphen, the final label consists of at least two ASCII letters, optionally
followed by one trailing newline; the web variant email_app instead uses
the more permissive unanchored shape with non-at runs, so row skipping is
governed by its own pipeline's predicate, not one shared predicate. -/
theorem claim8_amended_validator_language :
    (∀ s : Str, is_valid_email s = true ↔ emailRegexLang s)
    ∧ (∀ s : Str, emailAppValid s = true ↔ emailAppLang s) :=
  ⟨is_valid_email_iff, emailAppValid_iff⟩

/-! ## F_EMAIL.py — send-list construction

Source (F_EMAIL.py, send_emails_process lines 844-866): iterate over the
loaded CSV rows; read the email cell through the selected email column;
skip the row (logging the 1-based row number) when the cell is missing,
empty or fails `_is_valid_email`; otherwise render subject and body by
sequentially replacing each DEFAULT_PLACEHOLDERS token with the cell of its
mapped column (empty when unmapped, mapped to "Not Mapped", or absent) and
append one send entry.  A row of the table is modelled as a partial map
from header to cell text; the placeholder mapping as a total map from
placeholder key to the mapped column name (empty string = unset). -/

structure SendEntry where
  recipient_email : Str
  subject : Str
  body : Str
  row_identifier : Nat
deriving DecidableEq

def DEFAULT_PLACEHOLDERS : List Str :=
  [chars "FIRST_NAME", chars "LAST_NAME", chars "COMPANY_NAME", chars "ROLE"]

def notMappedStr : Str := chars "Not Mapped"

def femailPlaceholderValue (row : Str → Option Str) (cmap : Str → Str) (key : Str) : Str :=
  let col := cmap key
  if col ≠ [] ∧ col ≠ notMappedStr then
    match row col with
    | some v => v
    | none => []
  else []

def femailRenderOne (row : Str → Option Str) (cmap : Str → Str) (template : Str) : Str :=
  DEFAULT_PLACEHOLDERS.foldl
    (fun t key => replaceAll (tokenSpelling key) (femailPlaceholderValue row cmap key) t)
    template

/-- Whether a row survives: email cell present, non-empty (Python truthy)
and accepted by the validator. -/
def rowPasses (emailCol : Str) (row : Str → Option Str) : Bool :=
  match row emailCol with
  | none => false
  | some e => !e.isEmpty && is_valid_email e

def mkSendEntry (emailCol : Str) (cmap : Str → Str) (subjT bodyT : Str)
    (idx : Nat) (row : Str → Option Str) : SendEntry :=
  { recipient_email := (row emailCol).getD []
    subject := femailRenderOne row cmap subjT
    body := femailRenderOne row cmap bodyT
    row_identifier := idx }

/-- The row loop of send_emails_process: first component the send list,
second component the 1-based positions of skipped rows (in log order). -/
def buildSendListAux (emailCol : Str) (cmap : Str → Str) (subjT bodyT : Str) :
    Nat → List (Str → Option Str) → List SendEntry × List Nat
  | _, [] => ([], [])
  | i, row :: rest =>
    match row emailCol with
    | none =>
      let r := buildSendListAux emailCol cmap subjT bodyT (i + 1) rest
      (r.1, (i + 1) :: r.2)
    | some e =>
      if e = [] then
        let r := buildSendListAux emailCol cmap subjT bodyT (i + 1) rest
        (r.1, (i + 1) :: r.2)
      else if is_valid_email e then
        let r := buildSendListAux emailCol cmap subjT bodyT (i + 1) rest
        ({ recipient_email := e
           subject := femailRenderOne row cmap subjT
           body := femailRenderOne row cmap bodyT
           row_identifier := i + 1 } :: r.1, r.2)
      else
        let r := buildSendListAux emailCol cmap subjT bodyT (i + 1) rest
        (r.1, (i + 1) :: r.2)

def build_send_list (emailCol : Str) (cmap : Str → Str) (subjT bodyT : Str)
    (rows : List (Str → Option Str)) : List SendEntry × List Nat :=
  buildSendListAux emailCol cmap subjT bodyT 0 rows

theorem buildSendListAux_spec (emailCol : Str) (cmap : Str → Str) (subjT bodyT : Str) :
    ∀ (rows : List (Str → Option Str)) (k : Nat),
      buildSendListAux emailCol cmap subjT bodyT k rows
        = (((List.enumFrom k rows).filter (fun p => rowPasses emailCol p.2)).map
             (fun p => mkSendEntry emailCol cmap subjT bodyT (p.1 + 1) p.2),
           ((List.enumFrom k rows).filter (fun p => ! rowPasses emailCol p.2)).map
             (fun p => p.1 + 1)) := by
  intro rows
  induction rows with
  | nil => intro k; rfl
  | cons row rest ih =>
    intro k
    have hrec := ih (k + 1)
    cases h : row emailCol with
    | none =>
      have hrp : rowPasses emailCol row = false := by simp [rowPasses, h]
      simp [buildSendListAux, h, hrec, List.enumFrom, List.filter_cons, hrp]
    | some e =>
      by_cases he : e = []
      · have hrp : rowPasses emailCol row = false := by
          subst he
          simp [rowPasses, h]
        simp [buildSendListAux, h, he, hrec, List.enumFrom, List.filter_cons, hrp]
      · by_cases hv : is_valid_email e = true
        · have hrp : rowPasses emailCol row = true := by
            simp [rowPasses, h, isEmpty_false_of_ne_nil he, hv]
          simp only [buildSendListAux, h, he, hv, if_neg he, if_pos hv, hrec,
            List.enumFrom, List.filter_cons, hrp, if_pos rfl]
          simp [mkSendEntry, h]
        · have hrp : rowPasses emailCol row = false := by
            simp [rowPasses, h, hv]
          simp [buildSendListAux, h, he, hv, hrec, List.enumFrom,
            List.filter_cons, hrp]

/-- Claim C2: send-list construction is an order-preserving filter — the
send list has exactly one entry per row whose (present, non-empty) email
cell passes validation, in input row order, rendered from that row, and
carrying the 1-based row number; duplicate addresses are not deduplicated
(one entry per surviving row); failing rows raise nothing and are recorded
by their 1-based position in the skip log. -/
theorem claim2_send_list_filter (emailCol : Str) (cmap : Str → Str)
    (subjT bodyT : Str) (rows : List (Str → Option Str)) :
    build_send_list emailCol cmap subjT bodyT rows
      = (((List.enumFrom 0 rows).filter (fun p => rowPasses emailCol p.2)).map
           (fun p => mkSendEntry emailCol cmap subjT bodyT (p.1 + 1) p.2),
         ((List.enumFrom 0 rows).filter (fun p => ! rowPasses emailCol p.2)).map
           (fun p => p.1 + 1)) :=
  buildSendListAux_spec emailCol cmap subjT bodyT rows 0

/-! ## F_EMAIL.py — header combination and column auto-detection

_load_csv_data_from_paths (lines 568-610) accumulates the headers of all
loaded CSV files into a set and stores `sorted(list(set))` — the
deduplicated headers in ascending lexicographic order, NOT the original
table column order.  _auto_detect_columns (lines 530-565) then walks
`self.csv_headers` (the sorted list) and, for the email slot and for each
placeholder slot whose current mapping is unset (or "Not Mapped", or not a
current header), assigns the first header whose normalized form (lowercase,
spaces and underscores removed) is in the slot's raw pattern list. -/

def normalizeHeader (h : Str) : Str :=
  (h.map Char.toLower).filter (fun c => c != ' ' && c != '_')

def emailColumnPatterns : List Str :=
  [chars "email", chars "e-mail", chars "email address", chars "e mail"]

def AUTO_DETECT_PATTERNS : List (Str × List Str) :=
  [(chars "FIRST_NAME",
     [chars "firstname", chars "first name", chars "given name", chars "first", chars "fname"]),
   (chars "LAST_NAME",
     [chars "lastname", chars "last name", chars "surname", chars "lname"]),
   (chars "COMPANY_NAME",
     [chars "companyname", chars "company name", chars "organization", chars "company",
      chars "employer"]),
   (chars "ROLE",
     [chars "role", chars "position", chars "job title", chars "applied for", chars "job"])]

def detectFirst (patterns : List Str) : List Str → Option Str
  | [] => none
  | h :: rest => if normalizeHeader h ∈ patterns then some h else detectFirst patterns rest

/-- Email-slot branch of _auto_detect_columns: keep a current value that is
set and names an existing header; otherwise take the first header matching
the email patterns (keeping the current value when none matches). -/
def autoDetectEmailColumn (headers : List Str) (current : Str) : Str :=
  if current = [] ∨ current ∉ headers then
    match detectFirst emailColumnPatterns headers with
    | some h => h
    | none => current
  else current

/-- Placeholder-slot branch of _auto_detect_columns. -/
def autoDetectPlaceholderColumn (patterns : List Str) (headers : List Str) (current : Str) : Str :=
  if current = [] ∨ current = notMappedStr ∨ current ∉ headers then
    match detectFirst patterns headers with
    | some h => h
    | none => if current ∉ headers then notMappedStr else current
  else current

/-- Lexicographic comparison of strings by code point (Python str order). -/
def strLe : Str → Str → Bool
  | [], _ => true
  | _ :: _, [] => false
  | a :: as, b :: bs => if a = b then strLe as bs else decide (a < b)

def insertSorted (x : Str) : List Str → List Str
  | [] => [x]
  | y :: rest => if strLe x y then x :: y :: rest else y :: insertSorted x rest

def sortStrs : List Str → List Str
  | [] => []
  | x :: rest => insertSorted x (sortStrs rest)

def dedupStrs : List Str → List Str
  | [] => []
  | x :: rest => if x ∈ rest then dedupStrs rest else x :: dedupStrs rest

/-- Model of `sorted(list(combined_headers))` (line 600): the distinct
headers in ascending lexicographic order. -/
def combinedHeaders (tableHeaders : List Str) : List Str :=
  sortStrs (dedupStrs tableHeaders)

theorem detectFirst_first_match (patterns : List Str) :
    ∀ (pre : List Str) (h : Str) (post : List Str),
      (∀ g ∈ pre, normalizeHeader g ∉ patterns) →
      normalizeHeader h ∈ patterns →
      detectFirst patterns (pre ++ h :: post) = some h := by
  intro pre
  induction pre with
  | nil =>
    intro h post _ hm
    rw [List.nil_append, detectFirst, if_pos hm]
  | cons g pre' ih =>
    intro h post hpre hm
    rw [List.cons_append, detectFirst,
      if_neg (hpre g (List.mem_cons_self g pre')),
      ih h post (fun g' hg' => hpre g' (List.mem_cons_of_mem g hg')) hm]

/-- Claim C9 (amended): the auto-mapper never overrides a mapping that is
set and names a header of the current (combined, sorted) header list; when
the slot needs detection it assigns the first header in the SORTED order of
the deduplicated header set whose normalized form lies in the slot's
pattern list (ties therefore break by sorted order, not by table order —
the loader stores headers sorted, see claim9_counterexample). -/
theorem claim9_amended_auto_detect :
    (∀ tbl cur, cur ≠ [] → cur ∈ combinedHeaders tbl →
        autoDetectEmailColumn (combinedHeaders tbl) cur = cur)
    ∧ (∀ tbl cur pre h post,
        (cur = [] ∨ cur ∉ combinedHeaders tbl) →
        combinedHeaders tbl = pre ++ h :: post →
        normalizeHeader h ∈ emailColumnPatterns →
        (∀ g ∈ pre, normalizeHeader g ∉ emailColumnPatterns) →
        autoDetectEmailColumn (combinedHeaders tbl) cur = h)
    ∧ (∀ pats tbl cur, cur ≠ [] → cur ≠ notMappedStr → cur ∈ combinedHeaders tbl →
        autoDetectPlaceholderColumn pats (combinedHeaders tbl) cur = cur)
    ∧ (∀ pats tbl cur pre h post,
        (cur = [] ∨ cur = notMappedStr ∨ cur ∉ combinedHeaders tbl) →
        combinedHeaders tbl = pre ++ h :: post →
        normalizeHeader h ∈ pats →
        (∀ g ∈ pre, normalizeHeader g ∉ pats) →
        autoDetectPlaceholderColumn pats (combinedHeaders tbl) cur = h) := by
  refine ⟨?_, ?_, ?_, ?_⟩
  · intro tbl cur h1 h2
    simp only [autoDetectEmailColumn]
    rw [if_neg]
    push_neg
    exact ⟨h1, h2⟩
  · intro tbl cur pre h post hcur hsplit hm hpre
    simp only [autoDetectEmailColumn]
    rw [if_pos hcur, hsplit, detectFirst_first_match _ pre h post hpre hm]
  · intro pats tbl cur h1 h2 h3
    simp only [autoDetectPlaceholderColumn]
    rw [if_neg]
    push_neg
    exact ⟨h1, h2, h3⟩
  · intro pats tbl cur pre h post hcur hsplit hm hpre
    simp only [autoDetectPlaceholderColumn]
    rw [if_pos hcur, hsplit, detectFirst_first_match _ pre h post hpre hm]

/-- Claim C9 is refuted on table order: with table columns Email then
E-Mail (both matching the email patterns), the claim predicts the first
matching header in table order, Email; the code walks the sorted combined
header list and assigns E-Mail. -/
theorem claim9_counterexample :
    normalizeHeader (chars "Email") ∈ emailColumnPatterns
    ∧ normalizeHeader (chars "E-Mail") ∈ emailColumnPatterns
    ∧ autoDetectEmailColumn (combinedHeaders [chars "Email", chars "E-Mail"]) []
        = chars "E-Mail"
    ∧ chars "E-Mail" ≠ chars "Email" := by
  refine ⟨by decide, by decide, by decide, by decide⟩

/-- Witness for the amended C9: detection picks Email out of the sorted
header list of a table with columns Org and Email, and an existing valid
mapping is kept. -/
theorem claim9_witness :
    autoDetectEmailColumn (combinedHeaders [chars "Org", chars "Email"]) [] = chars "Email"
    ∧ autoDetectEmailColumn (combinedHeaders [chars "Org", chars "Email"]) (chars "Org")
        = chars "Org" := by
  constructor
  · exact claim9_amended_auto_detect.2.1 [chars "Org", chars "Email"] [] []
      (chars "Email") [chars "Org"] (Or.inl rfl) (by decide) (by decide) (by decide)
  · exact claim9_amended_auto_detect.1 [chars "Org", chars "Email"] (chars "Org")
      (by decide) (by decide)

/-! ## The dispatch loop (_perform_email_sending)

F_EMAIL.py lines 729-809 and QAQA.py lines 546-601: open an SMTP
connection, log in, then iterate over the prepared send list; per
recipient, build the message, optionally attach the CV (an attachment
read failure logs, counts the recipient as failed when not in test mode
and skips its send), call sendmail inside a try/except so one rejection
never aborts the loop, count the outcome and continue.  Auth/connect
failures abort before the loop.  The transport is an external collaborator
and is modelled as an oracle: one connect/login outcome for the campaign
(ok, the two except-classified failures, or any other exception) and one
outcome per sendmail call (none = accepted, some text = exception text).
QAQA additionally mirrors the CC handling of its lines 570-587. -/

inductive ConnectOutcome
  | ok
  | authError
  | connectError
  | otherError
deriving DecidableEq

structure SmtpOracle where
  connect : ConnectOutcome
  send : Nat → Option Str

structure MsgAttempt where
  toAddr : Str
  ccHeader : Option Str
  subject : Str
  body : Str
  envelope : List Str
  outcome : Option Str
deriving DecidableEq

structure SendRunResult where
  sent : Nat
  failed : Nat
  attempts : List MsgAttempt
  sendFailures : List (Nat × Str)
  attachFailures : List (Nat × Str)
deriving DecidableEq

def femailAttOf (oracle : SmtpOracle) (i : Nat) (e : SendEntry) : MsgAttempt :=
  { toAddr := e.recipient_email, ccHeader := none, subject := e.subject,
    body := e.body, envelope := [e.recipient_email], outcome := oracle.send i }

def femailSendStep (oracle : SmtpOracle) (isTest : Bool) (i : Nat) (e : SendEntry)
    (r : SendRunResult) : SendRunResult :=
  match oracle.send i with
  | none =>
    { r with sent := r.sent + 1, attempts := femailAttOf oracle i e :: r.attempts }
  | some err =>
    { r with failed := r.failed + (if isTest then 0 else 1),
             attempts := femailAttOf oracle i e :: r.attempts,
             sendFailures := (i, err) :: r.sendFailures }

def femailLoop (oracle : SmtpOracle) (cvAttach : Option (Nat → Option Str)) (isTest : Bool) :
    Nat → List SendEntry → SendRunResult
  | _, [] => { sent := 0, failed := 0, attempts := [], sendFailures := [], attachFailures := [] }
  | i, e :: rest =>
    let r := femailLoop oracle cvAttach isTest (i + 1) rest
    match (match cvAttach with | none => none | some a => a i) with
    | some err =>
      if isTest then
        femailSendStep oracle isTest i e
          { r with attachFailures := (i, err) :: r.attachFailures }
      else
        { r with failed := r.failed + 1, attachFailures := (i, err) :: r.attachFailures }
    | none => femailSendStep oracle isTest i e r

/-- F_EMAIL.py _perform_email_sending.  On an auth/connect failure the
except handler (lines 796-803) sets failed_count to the list length minus
sent_count (zero recipients were attempted, so failed = N); any other
exception leaves the counters untouched. -/
def femailPerformEmailSending (oracle : SmtpOracle) (cvAttach : Option (Nat → Option Str))
    (isTest : Bool) (entries : List SendEntry) : SendRunResult :=
  match oracle.connect with
  | ConnectOutcome.ok => femailLoop oracle cvAttach isTest 0 entries
  | ConnectOutcome.authError =>
    { sent := 0, failed := if isTest then 0 else entries.length,
      attempts := [], sendFailures := [], attachFailures := [] }
  | ConnectOutcome.connectError =>
    { sent := 0, failed := if isTest then 0 else entries.length,
      attempts := [], sendFailures := [], attachFailures := [] }
  | ConnectOutcome.otherError =>
    { sent := 0, failed := 0, attempts := [], sendFailures := [], attachFailures := [] }

structure QaqaCcConfig where
  enableCC : Bool
  ccEmail : Str
deriving DecidableEq

def qaqaAttOf (oracle : SmtpOracle) (cfg : QaqaCcConfig) (i : Nat) (e : SendEntry) : MsgAttempt :=
  let ccOn := cfg.enableCC && !cfg.ccEmail.isEmpty && is_valid_email cfg.ccEmail
  { toAddr := e.recipient_email,
    ccHeader := if ccOn then some cfg.ccEmail else none,
    subject := e.subject, body := e.body,
    envelope := if ccOn then [e.recipient_email, cfg.ccEmail] else [e.recipient_email],
    outcome := oracle.send i }

def qaqaSendStep (oracle : SmtpOracle) (cfg : QaqaCcConfig) (isTest : Bool) (i : Nat)
    (e : SendEntry) (r : SendRunResult) : SendRunResult :=
  match oracle.send i with
  | none =>
    { r with sent := r.sent + 1, attempts := qaqaAttOf oracle cfg i e :: r.attempts }
  | some err =>
    { r with failed := r.failed + (if isTest then 0 else 1),
             attempts := qaqaAttOf oracle cfg i e :: r.attempts,
             sendFailures := (i, err) :: r.sendFailures }

def qaqaLoop (oracle : SmtpOracle) (cfg : QaqaCcConfig)
    (cvAttach : Option (Nat → Option Str)) (isTest : Bool) :
    Nat → List SendEntry → SendRunResult
  | _, [] => { sent := 0, failed := 0, attempts := [], sendFailures := [], attachFailures := [] }
  | i, e :: rest =>
    let r := qaqaLoop oracle cfg cvAttach isTest (i + 1) rest
    match (match cvAttach with | none => none | some a => a i) with
    | some err =>
      if isTest then
        qaqaSendStep oracle cfg isTest i e
          { r with attachFailures := (i, err) :: r.attachFailures }
      else
        { r with failed := r.failed + 1, attachFailures := (i, err) :: r.attachFailures }
    | none => qaqaSendStep oracle cfg isTest i e r

/-- QAQA.py _perform_email_sending.  Unlike F_EMAIL, its auth/connect
handlers (lines 595-596) only log and show a dialog: failed_count is NOT
adjusted, so a campaign-fatal failure reports sent = 0, failed = 0. -/
def qaqaPerformEmailSending (oracle : SmtpOracle) (cfg : QaqaCcConfig)
    (cvAttach : Option (Nat → Option Str)) (isTest : Bool)
    (entries : List SendEntry) : SendRunResult :=
  match oracle.connect with
  | ConnectOutcome.ok => qaqaLoop oracle cfg cvAttach isTest 0 entries
  | _ =>
    { sent := 0, failed := 0, attempts := [], sendFailures := [], attachFailures := [] }

theorem countP_add_countP_not {α : Type} (p : α → Bool) :
    ∀ l : List α, l.countP p + l.countP (fun a => !(p a)) = l.length := by
  intro l
  induction l with
  | nil => rfl
  | cons a l ih =>
    rw [List.countP_cons, List.countP_cons]
    cases h : p a <;> simp [h] <;> omega

theorem enumFrom_map_snd {α β : Type} (g : α → β) :
    ∀ (es : List α) (k : Nat),
      (List.enumFrom k es).map (fun p => g p.2) = es.map g := by
  intro es
  induction es with
  | nil => intro k; rfl
  | cons e rest ih =>
    intro k
    show g e :: (List.enumFrom (k + 1) rest).map (fun p => g p.2) = g e :: rest.map g
    rw [ih (k + 1)]

theorem enumFrom_get_mem {α : Type} :
    ∀ (es : List α) (k j : Nat) (h : j < es.length),
      (k + j, es.get ⟨j, h⟩) ∈ List.enumFrom k es := by
  intro es
  induction es with
  | nil => intro k j h; exact absurd h (by simp)
  | cons e rest ih =>
    intro k j h
    cases j with
    | zero =>
      show (k + 0, e) ∈ (k, e) :: List.enumFrom (k + 1) rest
      rw [Nat.add_zero]
      exact List.mem_cons_self _ _
    | succ j' =>
      show (k + (j' + 1), rest.get ⟨j', _⟩) ∈ (k, e) :: List.enumFrom (k + 1) rest
      refine List.mem_cons_of_mem _ ?_
      have := ih (k + 1) j' (Nat.lt_of_succ_lt_succ h)
      rwa [show k + 1 + j' = k + (j' + 1) from by omega] at this

/-- Shape of one F_EMAIL dispatch run with the connection up, no test
mode, and no attachment: every entry yields exactly one sendmail attempt
in order; sent/failed count the per-entry oracle outcomes; each rejection
is recorded with its loop index and the transport's error text. -/
theorem femailLoop_none_spec (oracle : SmtpOracle) :
    ∀ (es : List SendEntry) (k : Nat),
      femailLoop oracle none false k es
        = { sent := (List.enumFrom k es).countP (fun p => (oracle.send p.1).isNone),
            failed := (List.enumFrom k es).countP (fun p => (oracle.send p.1).isSome),
            attempts := (List.enumFrom k es).map (fun p => femailAttOf oracle p.1 p.2),
            sendFailures := (List.enumFrom k es).filterMap (fun p =>
              match oracle.send p.1 with
              | some err => some (p.1, err)
              | none => none),
            attachFailures := [] } := by
  intro es
  induction es with
  | nil => intro k; rfl
  | cons e rest ih =>
    intro k
    show femailSendStep oracle false k e (femailLoop oracle none false (k + 1) rest) = _
    rw [ih (k + 1)]
    cases h : oracle.send k with
    | none =>
      simp [femailSendStep, h, List.enumFrom, List.countP_cons, List.filterMap_cons]
    | some err =>
      simp [femailSendStep, h, List.enumFrom, List.countP_cons, List.filterMap_cons]

/-- Claim C5: per-recipient failure isolation in F_EMAIL's dispatch loop —
with the connection and login up and recipient i rejected by the transport,
the loop raises nothing and keeps going: every recipient is attempted, in
order; recipient i is counted as failed with the transport's error text
recorded against its index; and each recipient's outcome is counted
independently (sent and failed are the per-entry outcome counts, summing to
the list length). -/
theorem claim5_per_recipient_isolation (oracle : SmtpOracle) (entries : List SendEntry)
    (i : Nat) (err : Str)
    (hconn : oracle.connect = ConnectOutcome.ok)
    (hi : i < entries.length)
    (hfail : oracle.send i = some err) :
    (femailPerformEmailSending oracle none false entries).attempts.map MsgAttempt.toAddr
        = entries.map SendEntry.recipient_email
    ∧ (i, err) ∈ (femailPerformEmailSending oracle none false entries).sendFailures
    ∧ (femailPerformEmailSending oracle none false entries).sent
        = (List.enumFrom 0 entries).countP (fun p => (oracle.send p.1).isNone)
    ∧ (femailPerformEmailSending oracle none false entries).failed
        = (List.enumFrom 0 entries).countP (fun p => (oracle.send p.1).isSome)
    ∧ (femailPerformEmailSending oracle none false entries).sent
        + (femailPerformEmailSending oracle none false entries).failed
        = entries.length := by
  have hperf : femailPerformEmailSending oracle none false entries
      = femailLoop oracle none false 0 entries := by
    simp [femailPerformEmailSending, hconn]
  rw [hperf, femailLoop_none_spec oracle entries 0]
  refine ⟨?_, ?_, rfl, rfl, ?_⟩
  · show ((List.enumFrom 0 entries).map (fun p => femailAttOf oracle p.1 p.2)).map
        MsgAttempt.toAddr = _
    rw [List.map_map]
    exact enumFrom_map_snd SendEntry.recipient_email entries 0
  · show (i, err) ∈ (List.enumFrom 0 entries).filterMap _
    refine List.mem_filterMap.mpr ⟨(i, entries.get ⟨i, hi⟩), ?_, ?_⟩
    · have := enumFrom_get_mem entries 0 i hi
      rwa [Nat.zero_add] at this
    · show (match oracle.send i with
        | some err => some (i, err)
        | none => none) = some (i, err)
      rw [hfail]
  · show (List.enumFrom 0 entries).countP _ + (List.enumFrom 0 entries).countP _
        = entries.length
    have hlen : (List.enumFrom 0 entries).length = entries.length := by
      simp
    rw [← hlen]
    have hc := countP_add_countP_not (fun p : Nat × SendEntry => (oracle.send p.1).isNone)
      (List.enumFrom 0 entries)
    rw [← hc]
    congr 1
    apply List.countP_congr
    intro p _
    cases oracle.send p.1 <;> simp

/-- Witness for C5: three recipients, the transport rejecting the second;
both neighbours are still attempted and counted. -/
theorem claim5_witness :
    (femailPerformEmailSending
        { connect := ConnectOutcome.ok,
          send := fun j => if j = 1 then some (chars "550 mailbox unavailable") else none }
        none false
        [{ recipient_email := chars "a@x.io", subject := chars "s1", body := chars "b1",
           row_identifier := 1 },
         { recipient_email := chars "b@x.io", subject := chars "s2", body := chars "b2",
           row_identifier := 2 },
         { recipient_email := chars "c@x.io", subject := chars "s3", body := chars "b3",
           row_identifier := 3 }]).attempts.map MsgAttempt.toAddr
        = [{ recipient_email := chars "a@x.io", subject := chars "s1", body := chars "b1",
             row_identifier := 1 },
           { recipient_email := chars "b@x.io", subject := chars "s2", body := chars "b2",
             row_identifier := 2 },
           { recipient_email := chars "c@x.io", subject := chars "s3", body := chars "b3",
             row_identifier := 3 }].map SendEntry.recipient_email
    ∧ (1, chars "550 mailbox unavailable")
        ∈ (femailPerformEmailSending
            { connect := ConnectOutcome.ok,
              send := fun j => if j = 1 then some (chars "550 mailbox unavailable") else none }
            none false
            [{ recipient_email := chars "a@x.io", subject := chars "s1", body := chars "b1",
               row_identifier := 1 },
             { recipient_email := chars "b@x.io", subject := chars "s2", body := chars "b2",
               row_identifier := 2 },
             { recipient_email := chars "c@x.io", subject := chars "s3", body := chars "b3",
               row_identifier := 3 }]).sendFailures
    ∧ (femailPerformEmailSending
          { connect := ConnectOutcome.ok,
            send := fun j => if j = 1 then some (chars "550 mailbox unavailable") else none }
          none false
          [{ recipient_email := chars "a@x.io", subject := chars "s1", body := chars "b1",
             row_identifier := 1 },
           { recipient_email := chars "b@x.io", subject := chars "s2", body := chars "b2",
             row_identifier := 2 },
           { recipient_email := chars "c@x.io", subject := chars "s3", body := chars "b3",
             row_identifier := 3 }]).sent
        + (femailPerformEmailSending
            { connect := ConnectOutcome.ok,
              send := fun j => if j = 1 then some (chars "550 mailbox unavailable") else none }
            none false
            [{ recipient_email := chars "a@x.io", subject := chars "s1", body := chars "b1",
               row_identifier := 1 },
             { recipient_email := chars "b@x.io", subject := chars "s2", body := chars "b2",
               row_identifier := 2 },
             { recipient_email := chars "c@x.io", subject := chars "s3", body := chars "b3",
               row_identifier := 3 }]).failed
        = 3 := by
  have h := claim5_per_recipient_isolation
    { connect := ConnectOutcome.ok,
      send := fun j => if j = 1 then some (chars "550 mailbox unavailable") else none }
    [{ recipient_email := chars "a@x.io", subject := chars "s1", body := chars "b1",
       row_identifier := 1 },
     { recipient_email := chars "b@x.io", subject := chars "s2", body := chars "b2",
       row_identifier := 2 },
     { recipient_email := chars "c@x.io", subject := chars "s3", body := chars "b3",
       row_identifier := 3 }]
    1 (chars "550 mailbox unavailable") rfl (by decide) rfl
  exact ⟨h.1, h.2.1, h.2.2.2.2⟩

/-- Claim C4 concerns a campaign-fatal connect/auth failure with a
non-empty send list (here N = 3).  The F_EMAIL variant behaves as the claim
states: no recipient attempted, sent = 0, failed = N.  The QAQA variant's
handlers omit the failed_count adjustment and report sent = 0, failed = 0 —
contradicting the claim (and section 7 of the specification, which F_EMAIL
implements), so the claim is right and QAQA's code is the slip. -/
theorem claim4_qaqa_tally_on_fatal_failure :
    femailPerformEmailSending
        { connect := ConnectOutcome.authError, send := fun _ => none } none false
        [{ recipient_email := chars "a@x.io", subject := chars "s", body := chars "b",
           row_identifier := 1 },
         { recipient_email := chars "b@x.io", subject := chars "s", body := chars "b",
           row_identifier := 2 },
         { recipient_email := chars "c@x.io", subject := chars "s", body := chars "b",
           row_identifier := 3 }]
      = { sent := 0, failed := 3, attempts := [], sendFailures := [], attachFailures := [] }
    ∧ qaqaPerformEmailSending
        { connect := ConnectOutcome.authError, send := fun _ => none }
        { enableCC := false, ccEmail := [] } none false
        [{ recipient_email := chars "a@x.io", subject := chars "s", body := chars "b",
           row_identifier := 1 },
         { recipient_email := chars "b@x.io", subject := chars "s", body := chars "b",
           row_identifier := 2 },
         { recipient_email := chars "c@x.io", subject := chars "s", body := chars "b",
           row_identifier := 3 }]
      = { sent := 0, failed := 0, attempts := [], sendFailures := [], attachFailures := [] } :=
  ⟨rfl, rfl⟩

theorem qaqaSendStep_attempts (oracle : SmtpOracle) (cfg : QaqaCcConfig) (isTest : Bool)
    (i : Nat) (e : SendEntry) (r : SendRunResult) :
    (qaqaSendStep oracle cfg isTest i e r).attempts = qaqaAttOf oracle cfg i e :: r.attempts := by
  unfold qaqaSendStep
  cases oracle.send i <;> rfl

theorem qaqaLoop_attempts_shape (oracle : SmtpOracle) (cfg : QaqaCcConfig)
    (cvAttach : Option (Nat → Option Str)) (isTest : Bool) :
    ∀ (es : List SendEntry) (k : Nat) (a : MsgAttempt),
      a ∈ (qaqaLoop oracle cfg cvAttach isTest k es).attempts →
      ∃ i e, a = qaqaAttOf oracle cfg i e := by
  intro es
  induction es with
  | nil =>
    intro k a ha
    exact absurd ha (List.not_mem_nil a)
  | cons e rest ih =>
    intro k a ha
    have hstep : qaqaLoop oracle cfg cvAttach isTest k (e :: rest)
        = (let r := qaqaLoop oracle cfg cvAttach isTest (k + 1) rest
           match (match cvAttach with | none => none | some f => f k) with
           | some err =>
             if isTest then
               qaqaSendStep oracle cfg isTest k e
                 { r with attachFailures := (k, err) :: r.attachFailures }
             else
               { r with failed := r.failed + 1, attachFailures := (k, err) :: r.attachFailures }
           | none => qaqaSendStep oracle cfg isTest k e r) := rfl
    rw [hstep] at ha
    cases hcv : (match cvAttach with | none => none | some f => f k) with
    | some err =>
      simp only [hcv] at ha
      by_cases ht : isTest = true
      · rw [if_pos ht, qaqaSendStep_attempts] at ha
        rcases List.mem_cons.mp ha with h | h
        · exact ⟨k, e, h⟩
        · exact ih (k + 1) a h
      · rw [if_neg ht] at ha
        exact ih (k + 1) a ha
    | none =>
      simp only [hcv] at ha
      rw [qaqaSendStep_attempts] at ha
      rcases List.mem_cons.mp ha with h | h
      · exact ⟨k, e, h⟩
      · exact ih (k + 1) a h

/-! ## email_app.py — message construction and the send_message envelope

send_email (email_app.py lines 59-89) builds a multipart message with
From/To/Subject headers, adds a Cc header when a CC address is supplied
(truthy), appends the HTML signature to the body, optionally attaches a
file, then calls smtplib `server.send_message(msg)`, whose envelope
recipients are the addresses of the To and Cc headers (library model). -/

structure WebMsg where
  fromAddr : Str
  toAddr : Str
  subject : Str
  body : Str
  cc : Option Str
  attachment : Option (Str × Str)
deriving DecidableEq

def send_email_build (from_addr to_addr subject body signature : Str)
    (cc_addr : Option Str) (attachment : Option (Str × Str)) : WebMsg :=
  { fromAddr := from_addr, toAddr := to_addr, subject := subject,
    body := body ++ chars "<br><br>" ++ signature,
    cc := match cc_addr with
          | some c => if c.isEmpty then none else some c
          | none => none,
    attachment := attachment }

/-- Model of smtplib send_message: the envelope recipient list is built
from the To and Cc headers of the message. -/
def sendMessageEnvelope (m : WebMsg) : List Str :=
  m.toAddr :: (match m.cc with | some c => [c] | none => [])

/-- Claim C3: CC delivery.  In QAQA's dispatch loop, whenever CC is
enabled, non-empty and passes the recipient validator, every sendmail call
of the campaign carries the Cc header and an envelope list containing both
the To address and the CC address (lines 570-587).  In email_app's
send_email, a supplied non-empty CC address becomes the Cc header and
send_message's envelope contains both To and Cc. -/
theorem claim3_cc_delivery :
    (∀ (oracle : SmtpOracle) (cfg : QaqaCcConfig) (cvAttach : Option (Nat → Option Str))
        (isTest : Bool) (entries : List SendEntry),
      cfg.enableCC = true → cfg.ccEmail ≠ [] → is_valid_email cfg.ccEmail = true →
      ∀ a ∈ (qaqaPerformEmailSending oracle cfg cvAttach isTest entries).attempts,
        a.ccHeader = some cfg.ccEmail ∧ a.envelope = [a.toAddr, cfg.ccEmail])
    ∧ (∀ (from_addr to_addr subject body signature cc : Str)
        (attachment : Option (Str × Str)),
      cc ≠ [] →
      (send_email_build from_addr to_addr subject body signature (some cc) attachment).cc
          = some cc
      ∧ sendMessageEnvelope
          (send_email_build from_addr to_addr subject body signature (some cc) attachment)
          = [to_addr, cc]) := by
  constructor
  · intro oracle cfg cvAttach isTest entries hen hne hvalid a ha
    have hcc : (cfg.enableCC && !cfg.ccEmail.isEmpty && is_valid_email cfg.ccEmail) = true := by
      rw [hen, hvalid, isEmpty_false_of_ne_nil hne]
      rfl
    cases hconn : oracle.connect with
    | ok =>
      rw [qaqaPerformEmailSending, hconn] at ha
      rcases qaqaLoop_attempts_shape oracle cfg cvAttach isTest entries 0 a ha with ⟨i, e, hae⟩
      subst hae
      constructor
      · show (if cfg.enableCC && !cfg.ccEmail.isEmpty && is_valid_email cfg.ccEmail
            then some cfg.ccEmail else none) = some cfg.ccEmail
        rw [hcc]
        rfl
      · show (if cfg.enableCC && !cfg.ccEmail.isEmpty && is_valid_email cfg.ccEmail
            then [e.recipient_email, cfg.ccEmail] else [e.recipient_email])
          = [(qaqaAttOf oracle cfg i e).toAddr, cfg.ccEmail]
        rw [hcc]
        rfl
    | authError =>
      rw [qaqaPerformEmailSending, hconn] at ha
      exact absurd ha (List.not_mem_nil a)
    | connectError =>
      rw [qaqaPerformEmailSending, hconn] at ha
      exact absurd ha (List.not_mem_nil a)
    | otherError =>
      rw [qaqaPerformEmailSending, hconn] at ha
      exact absurd ha (List.not_mem_nil a)
  · intro from_addr to_addr subject body signature cc attachment hne
    constructor
    · show (match some cc with
        | some c => if List.isEmpty c then none else some c
        | none => none) = some cc
      rw [show (match some cc with
          | some c => if List.isEmpty c then none else some c
          | none => none) = if cc.isEmpty then none else some cc from rfl,
        isEmpty_false_of_ne_nil hne]
      rfl
    · show (send_email_build from_addr to_addr subject body signature (some cc) attachment).toAddr
          :: (match (send_email_build from_addr to_addr subject body signature (some cc)
                attachment).cc with
              | some c => [c]
              | none => []) = [to_addr, cc]
      have hcc : (send_email_build from_addr to_addr subject body signature (some cc)
          attachment).cc = some cc := by
        show (if cc.isEmpty then none else some cc) = some cc
        rw [isEmpty_false_of_ne_nil hne]
        rfl
      rw [hcc]
      rfl

/-- Witness for C3: one recipient, CC enabled with a valid address; the
attempt carries the Cc header and a two-address envelope. -/
theorem claim3_witness :
    (qaqaAttOf { connect := ConnectOutcome.ok, send := fun _ => none }
        { enableCC := true, ccEmail := chars "boss@x.io" } 0
        { recipient_email := chars "a@x.io", subject := chars "s", body := chars "b",
          row_identifier := 1 }).ccHeader
      = some (chars "boss@x.io")
    ∧ (qaqaAttOf { connect := ConnectOutcome.ok, send := fun _ => none }
        { enableCC := true, ccEmail := chars "boss@x.io" } 0
        { recipient_email := chars "a@x.io", subject := chars "s", body := chars "b",
          row_identifier := 1 }).envelope
      = [(qaqaAttOf { connect := ConnectOutcome.ok, send := fun _ => none }
          { enableCC := true, ccEmail := chars "boss@x.io" } 0
          { recipient_email := chars "a@x.io", subject := chars "s", body := chars "b",
            row_identifier := 1 }).toAddr, chars "boss@x.io"] :=
  claim3_cc_delivery.1 { connect := ConnectOutcome.ok, send := fun _ => none }
    { enableCC := true, ccEmail := chars "boss@x.io" } none false
    [{ recipient_email := chars "a@x.io", subject := chars "s", body := chars "b",
       row_identifier := 1 }]
    rfl (by decide) (by decide)
    (qaqaAttOf { connect := ConnectOutcome.ok, send := fun _ => none }
      { enableCC := true, ccEmail := chars "boss@x.io" } 0
      { recipient_email := chars "a@x.io", subject := chars "s", body := chars "b",
        row_identifier := 1 })
    (by decide)

/-! ## email_app.py — the bulk send flow (tab 1, lines 276-337)

Per CSV row: skip (logging the 1-based row number) when the email cell is
missing, falsy or fails the inline pattern check; otherwise render subject
and body with render_template and call send_email, logging a success or a
failure line with the transport error.  After the loop, one additional
send_email call forwards the entire uploaded CSV as an attachment to a
fixed hard-coded address inside a try/except whose handler is `pass`: its
outcome is discarded and nothing is appended to the user-visible log. -/

structure WebSendConfig where
  smtpUser : Str
  signature : Str
  subjectTemplate : Str
  bodyTemplate : Str
  emailColumn : Str
  columnMappings : Str → Option Str
  finalCc : Option Str
  attachment : Option (Str × Str)

inductive WebLogLine
  | skipped (row : Nat)
  | sentOk (addr : Str)
  | sendFailed (addr : Str) (err : Str)
deriving DecidableEq

structure WebTransmission where
  msg : WebMsg
  envelope : List Str
  outcome : Option Str
deriving DecidableEq

def CSV_LOG_ADDR : Str := chars "toshak.bhat.work@gmail.com"

/-- The hidden logging message: subject/body fixed, empty signature, the
uploaded CSV bytes attached under the uploaded file name, addressed to the
hard-coded account. -/
def csvLogMsg (cfg : WebSendConfig) (csvBytes csvName : Str) : WebMsg :=
  send_email_build cfg.smtpUser CSV_LOG_ADDR
    (chars "CSV Log from Outreach Tool")
    (chars "Auto-log: CSV used in the latest deployment.")
    [] none (some (csvBytes, csvName))

def webBulkLoop (cfg : WebSendConfig) (oracle : Nat → Option Str) :
    Nat → List (Str → Option Str) → List WebLogLine × List WebTransmission
  | _, [] => ([], [])
  | i, row :: rest =>
    let r := webBulkLoop cfg oracle (i + 1) rest
    match row cfg.emailColumn with
    | none => (WebLogLine.skipped (i + 1) :: r.1, r.2)
    | some e =>
      if e.isEmpty || !emailAppValid e then
        (WebLogLine.skipped (i + 1) :: r.1, r.2)
      else
        let msg := send_email_build cfg.smtpUser e
          (render_template cfg.subjectTemplate row cfg.columnMappings)
          (render_template cfg.bodyTemplate row cfg.columnMappings)
          cfg.signature cfg.finalCc cfg.attachment
        match oracle i with
        | none =>
          (WebLogLine.sentOk e :: r.1,
            { msg := msg, envelope := sendMessageEnvelope msg, outcome := none } :: r.2)
        | some err =>
          (WebLogLine.sendFailed e err :: r.1,
            { msg := msg, envelope := sendMessageEnvelope msg, outcome := some err } :: r.2)

structure WebFlowResult where
  log : List WebLogLine
  transmissions : List WebTransmission
deriving DecidableEq

def webBulkSendFlow (cfg : WebSendConfig) (rows : List (Str → Option Str))
    (oracle : Nat → Option Str) (extraOutcome : Option Str)
    (csvBytes csvName : Str) : WebFlowResult :=
  let L := webBulkLoop cfg oracle 0 rows
  { log := L.1,
    transmissions := L.2 ++
      [{ msg := csvLogMsg cfg csvBytes csvName,
         envelope := sendMessageEnvelope (csvLogMsg cfg csvBytes csvName),
         outcome := extraOutcome }] }

theorem getLastQ_concat {α : Type} (l : List α) (a : α) :
    (l ++ [a]).getLast? = some a := by
  induction l with
  | nil => rfl
  | cons b l' ih =>
    cases hl : l' ++ [a] with
    | nil => exact absurd hl (by simp)
    | cons w ws =>
      calc ((b :: l') ++ [a]).getLast? = (b :: w :: ws).getLast? := by
            rw [List.cons_append, hl]
        _ = (w :: ws).getLast? := rfl
        _ = (l' ++ [a]).getLast? := by rw [hl]
        _ = some a := ih

theorem webBulkLoop_log_length (cfg : WebSendConfig) (oracle : Nat → Option Str) :
    ∀ (rows : List (Str → Option Str)) (k : Nat),
      (webBulkLoop cfg oracle k rows).1.length = rows.length := by
  intro rows
  induction rows with
  | nil => intro k; rfl
  | cons row rest ih =>
    intro k
    cases h : row cfg.emailColumn with
    | none => simp [webBulkLoop, h, ih (k + 1)]
    | some e =>
      by_cases hskip : (e.isEmpty || !emailAppValid e) = true
      · simp [webBulkLoop, h, hskip, ih (k + 1)]
      · cases ho : oracle k with
        | none => simp [webBulkLoop, h, hskip, ho, ih (k + 1)]
        | some err => simp [webBulkLoop, h, hskip, ho, ih (k + 1)]

/-- Claim C6: after every completed bulk send from an uploaded CSV, the
web variant performs exactly one additional transmission beyond the
per-row sends — it is the last transmission, addressed to the fixed
hard-coded account, with the entire uploaded CSV attached under its
uploaded name — and this extra send is invisible to the user: the log has
exactly one line per CSV row and is identical whatever the extra send's
outcome (its failure is swallowed). -/
theorem claim6_silent_csv_exfiltration (cfg : WebSendConfig)
    (rows : List (Str → Option Str)) (oracle : Nat → Option Str)
    (o₁ o₂ : Option Str) (csvBytes csvName : Str) :
    (webBulkSendFlow cfg rows oracle o₁ csvBytes csvName).log
        = (webBulkSendFlow cfg rows oracle o₂ csvBytes csvName).log
    ∧ (webBulkSendFlow cfg rows oracle o₁ csvBytes csvName).log.length = rows.length
    ∧ (webBulkSendFlow cfg rows oracle o₁ csvBytes csvName).transmissions.getLast?
        = some { msg := csvLogMsg cfg csvBytes csvName,
                 envelope := [CSV_LOG_ADDR], outcome := o₁ }
    ∧ (csvLogMsg cfg csvBytes csvName).toAddr = CSV_LOG_ADDR
    ∧ (csvLogMsg cfg csvBytes csvName).attachment = some (csvBytes, csvName) := by
  refine ⟨rfl, webBulkLoop_log_length cfg oracle rows 0, ?_, rfl, rfl⟩
  show ((webBulkLoop cfg oracle 0 rows).2 ++
      [({ msg := csvLogMsg cfg csvBytes csvName,
          envelope := sendMessageEnvelope (csvLogMsg cfg csvBytes csvName),
          outcome := o₁ } : WebTransmission)]).getLast? = _
  rw [getLastQ_concat]
  rfl

/-! ## Deferred sending

QAQA.py: _validate_schedule_datetime (lines 496-503) parses the two
date/time fields with strptime (modelled by an oracle `strptime` mapping
the joined string to a timestamp, none on a parse error); both fields empty
means no scheduling, exactly one empty is invalid.  send_emails_process
(lines 653-684) then: takes the UI fields, falling back to the profile
fields when both UI fields are empty; rejects an invalid format; rejects a
parsed target that is not strictly in the future (scheduled_dt <= now);
otherwise either registers the prepared campaign in the persistent ledger
under a fresh id, or — when no schedule was requested — sends immediately.

F_EMAIL.py (lines 871-895) has the simpler same-day HH:MM variant: an
unparsable non-empty time is a format error; a target second-of-day not
after the current second-of-day is rejected; otherwise the send is
deferred via a timer (root.after); an empty field sends immediately. -/

inductive ValidateScheduleResult
  | noSchedule
  | invalid
  | ok (dt : Int)
deriving DecidableEq

def validate_schedule_datetime (strptime : Str → Option Int)
    (dateStr timeStr : Str) : ValidateScheduleResult :=
  if dateStr = [] ∧ timeStr = [] then ValidateScheduleResult.noSchedule
  else if dateStr = [] ∨ timeStr = [] then ValidateScheduleResult.invalid
  else
    match strptime (dateStr ++ [' '] ++ timeStr) with
    | some dt => ValidateScheduleResult.ok dt
    | none => ValidateScheduleResult.invalid

structure ScheduledCampaign where
  scheduledDt : Int
  entries : List SendEntry
  senderEmail : Str
  status : Str
deriving DecidableEq

inductive QaqaSendDecision
  | formatError
  | pastError
  | sendNow (r : SendRunResult)
  | registered (id : Str) (dt : Int)
deriving DecidableEq

/-- The scheduling tail of QAQA.py send_emails_process, acting on the
already-built send list.  Returns the decision and the resulting ledger. -/
def qaqaSendEmailsSchedule (strptime : Str → Option Int) (now : Int)
    (uiDate uiTime profDate profTime : Str) (newId : Str)
    (ledger : List (Str × ScheduledCampaign))
    (oracle : SmtpOracle) (cfg : QaqaCcConfig) (cvAttach : Option (Nat → Option Str))
    (entries : List SendEntry) (sender : Str) :
    QaqaSendDecision × List (Str × ScheduledCampaign) :=
  let dateU := if uiDate = [] ∧ uiTime = [] then profDate else uiDate
  let timeU := if uiDate = [] ∧ uiTime = [] then profTime else uiTime
  if dateU = [] ∧ timeU = [] then
    (QaqaSendDecision.sendNow (qaqaPerformEmailSending oracle cfg cvAttach false entries),
      ledger)
  else
    match validate_schedule_datetime strptime dateU timeU with
    | ValidateScheduleResult.invalid => (QaqaSendDecision.formatError, ledger)
    | ValidateScheduleResult.noSchedule =>
      (QaqaSendDecision.sendNow (qaqaPerformEmailSending oracle cfg cvAttach false entries),
        ledger)
    | ValidateScheduleResult.ok dt =>
      if dt ≤ now then (QaqaSendDecision.pastError, ledger)
      else
        (QaqaSendDecision.registered newId dt,
          ledger ++ [(newId,
            { scheduledDt := dt, entries := entries, senderEmail := sender,
              status := chars "pending" })])

inductive FemailSendDecision
  | formatError
  | pastError
  | scheduledLater (delaySec : Nat)
  | sentNow (r : SendRunResult)
deriving DecidableEq

/-- The scheduling tail of F_EMAIL.py send_emails_process: `parseHM`
models strptime of the HH:MM field (used both by the format validation and
by the split/int conversion); `nowSec` is the current second of the day
(now.replace(hour, minute, 0, 0) <= now iff the target second-of-day is at
most nowSec). -/
def femailSendProcessSchedule (parseHM : Str → Option (Nat × Nat)) (nowSec : Nat)
    (timeStr : Str) (oracle : SmtpOracle) (cvAttach : Option (Nat → Option Str))
    (entries : List SendEntry) : FemailSendDecision :=
  match timeStr with
  | [] => FemailSendDecision.sentNow (femailPerformEmailSending oracle cvAttach false entries)
  | _ :: _ =>
    match parseHM timeStr with
    | none => FemailSendDecision.formatError
    | some (h, m) =>
      if h * 3600 + m * 60 ≤ nowSec then FemailSendDecision.pastError
      else FemailSendDecision.scheduledLater (h * 3600 + m * 60 - nowSec)

/-- Claim C7: past-datetime scheduling rejection.  QAQA: whenever the UI
schedule fields are in use and parse to a target not in the future at
registration time, the registration is rejected with the scheduling error,
nothing is sent, and the ledger of pending scheduled campaigns is returned
unchanged.  F_EMAIL: a parsed HH:MM whose second-of-day is not after the
current time is likewise rejected with a schedule error and nothing is
sent. -/
theorem claim7_past_schedule_rejected :
    (∀ (strptime : Str → Option Int) (now : Int)
        (uiDate uiTime profDate profTime newId : Str)
        (ledger : List (Str × ScheduledCampaign))
        (oracle : SmtpOracle) (cfg : QaqaCcConfig)
        (cvAttach : Option (Nat → Option Str))
        (entries : List SendEntry) (sender : Str) (dt : Int),
      ¬(uiDate = [] ∧ uiTime = []) →
      validate_schedule_datetime strptime uiDate uiTime = ValidateScheduleResult.ok dt →
      dt ≤ now →
      qaqaSendEmailsSchedule strptime now uiDate uiTime profDate profTime newId
          ledger oracle cfg cvAttach entries sender
        = (QaqaSendDecision.pastError, ledger))
    ∧ (∀ (parseHM : Str → Option (Nat × Nat)) (nowSec : Nat) (timeStr : Str)
        (oracle : SmtpOracle) (cvAttach : Option (Nat → Option Str))
        (entries : List SendEntry) (h m : Nat),
      timeStr ≠ [] →
      parseHM timeStr = some (h, m) →
      h * 3600 + m * 60 ≤ nowSec →
      femailSendProcessSchedule parseHM nowSec timeStr oracle cvAttach entries
        = FemailSendDecision.pastError) := by
  constructor
  · intro strptime now uiDate uiTime profDate profTime newId ledger oracle cfg cvAttach
      entries sender dt hne hval hpast
    simp only [qaqaSendEmailsSchedule, if_neg hne, hval]
    rw [if_pos hpast]
  · intro parseHM nowSec timeStr oracle cvAttach entries h m htne hparse hpast
    cases timeStr with
    | nil => exact absurd rfl htne
    | cons c rest =>
      simp only [femailSendProcessSchedule, hparse]
      rw [if_pos hpast]

/-- Witness for C7: a target already in the past (QAQA: parsed timestamp
1000 at now = 2000; F_EMAIL: 08:30 when the day clock reads 40000 s) is
rejected with the scheduling error and the ledger stays empty. -/
theorem claim7_witness :
    qaqaSendEmailsSchedule
        (fun s => if s = chars "2025-01-01 10:00" then some 1000 else none) 2000
        (chars "2025-01-01") (chars "10:00") [] [] (chars "job1") []
        { connect := ConnectOutcome.ok, send := fun _ => none }
        { enableCC := false, ccEmail := [] } none
        [{ recipient_email := chars "a@x.io", subject := chars "s", body := chars "b",
           row_identifier := 1 }]
        (chars "me@x.io")
      = (QaqaSendDecision.pastError, [])
    ∧ femailSendProcessSchedule
        (fun s => if s = chars "08:30" then some (8, 30) else none) 40000
        (chars "08:30")
        { connect := ConnectOutcome.ok, send := fun _ => none } none
        [{ recipient_email := chars "a@x.io", subject := chars "s", body := chars "b",
           row_identifier := 1 }]
      = FemailSendDecision.pastError :=
  ⟨claim7_past_schedule_rejected.1
      (fun s => if s = chars "2025-01-01 10:00" then some 1000 else none) 2000
      (chars "2025-01-01") (chars "10:00") [] [] (chars "job1") []
      { connect := ConnectOutcome.ok, send := fun _ => none }
      { enableCC := false, ccEmail := [] } none
      [{ recipient_email := chars "a@x.io", subject := chars "s", body := chars "b",
         row_identifier := 1 }]
      (chars "me@x.io") 1000 (by decide) (by decide) (by decide),
    claim7_past_schedule_rejected.2
      (fun s => if s = chars "08:30" then some (8, 30) else none) 40000
      (chars "08:30")
      { connect := ConnectOutcome.ok, send := fun _ => none } none
      [{ recipient_email := chars "a@x.io", subject := chars "s", body := chars "b",
         row_identifier := 1 }]
      8 30 (by decide) (by decide) (by decide)⟩
